import Mathlib

/-!
Verification of the resilient-interaction and convergence-polling engine of
the JobBot repository (two Selenium scripts: `Job_Bot_Nvidia_main.py` and
`bot_Job_IAI_main.py`).

The Python sources are shallowly embedded below.  Browser observations
(element presence, visibility, URLs of the open tabs, the pagination
signals read from the DOM) are passed in as explicit parameters or as
functions of time; time is modelled as a natural number counting the
sleep intervals of each polling loop (the unit of each loop is stated at
its definition).  A Python function that returns a value on one path and
raises on another is embedded with an explicit result type whose
constructors name both outcomes.
-/

/-! ## Python string primitives

`strContains hay needle` is Python's `needle in hay` (contiguous substring
test, empty needle always matches). -/

/-- Is `pre` a leading segment of `l`? (Python `str.startswith` on char lists.) -/
def charsStartWith : List Char → List Char → Bool
  | _, [] => true
  | [], _ :: _ => false
  | c :: t, d :: u => c = d && charsStartWith t u

/-- Python `needle in hay` on char lists: contiguous substring membership. -/
def charsContain (hay needle : List Char) : Bool :=
  if charsStartWith hay needle then true
  else
    match hay with
    | [] => false
    | _ :: t => charsContain t needle

/-- Python `needle in hay` for strings. -/
def strContains (hay needle : String) : Bool :=
  charsContain hay.data needle.data

/-! ## Nvidia bot: pagination state (`get_pagination_state`, lines 833-864)

`get_pagination_state` reads three signals, each guarded by `try/except`
so that an absent or unreadable signal is reported as the empty string:
the `aria-label` of the active page button, the `1 - 20 of N jobs`
counter, and the `href` of the first visible job link. -/

/-- The triple returned by `get_pagination_state`: every field is `""` when
the corresponding DOM element is absent or unreadable. -/
structure PagState where
  current_page_label : String
  outof_text : String
  first_job_href : String
deriving DecidableEq, Repr

/-- One comparison of `go_to_next_results_page_if_any` (lines 955, 959, 963):
`before_state[i] and after_state[i] and (after_state[i] != before_state[i])` —
Python truthiness makes this require both strings non-empty. -/
def signal_changed (b a : String) : Bool :=
  (b != "") && (a != "") && (a != b)

/-- The disjunction of the three signal comparisons of the wait loop in
`go_to_next_results_page_if_any` (lines 950-964), in source order. -/
def state_changed (b a : PagState) : Bool :=
  signal_changed b.current_page_label a.current_page_label
    || signal_changed b.outof_text a.outof_text
    || signal_changed b.first_job_href a.first_job_href

/-- Spec-side predicate, written from the claim text (for comparison with
`state_changed`, which is translated from the code): some signal that is
non-empty in both snapshots differs between them. -/
def sharedNonEmptySignalDiffers (b a : PagState) : Prop :=
  (b.current_page_label ≠ "" ∧ a.current_page_label ≠ "" ∧
      a.current_page_label ≠ b.current_page_label)
  ∨ (b.outof_text ≠ "" ∧ a.outof_text ≠ "" ∧ a.outof_text ≠ b.outof_text)
  ∨ (b.first_job_href ≠ "" ∧ a.first_job_href ≠ "" ∧
      a.first_job_href ≠ b.first_job_href)

/-! ## The two polling loops

Both scripts poll with a fixed sleep inside a `while time.time() - start <
budget` loop.  We model wall-clock time as the sum of the sleeps (the DOM
reads themselves are modelled as instantaneous), so an execution is
determined by the observation function `conv : ℕ → Bool` giving the
convergence check's value at each instant.

`runWait` is the sleep-first loop shape of `go_to_next_results_page_if_any`
(lines 949-968): the budget test comes first, then the sleep, then the
check.  `runWaitPoll` is the check-first loop shape of
`_wait_for_thank_you_redirect` (lines 603-632): the budget test, then the
check, then the sleep.  Both return the final elapsed time together with
the Python return value (`True` = converged, `False` = timed out). -/

/-- Sleep-first bounded polling loop.  `budget` and `interval` share one
time unit; `t` is the elapsed time so far. -/
def runWait (budget interval : ℕ) (hi : 0 < interval) (conv : ℕ → Bool)
    (t : ℕ) : ℕ × Bool :=
  if h : t < budget then
    if conv (t + interval) then (t + interval, true)
    else runWait budget interval hi conv (t + interval)
  else (t, false)
termination_by budget - t
decreasing_by simp_wf; omega

/-- Check-first bounded polling loop. -/
def runWaitPoll (budget interval : ℕ) (hi : 0 < interval) (conv : ℕ → Bool)
    (t : ℕ) : ℕ × Bool :=
  if h : t < budget then
    if conv t then (t, true)
    else runWaitPoll budget interval hi conv (t + interval)
  else (t, false)
termination_by budget - t
decreasing_by simp_wf; omega

/-- The pagination-change detection loop of `go_to_next_results_page_if_any`
(lines 948-968): 20 s budget, 0.6 s sleep per iteration — in tenths of a
second, budget 200 and interval 6.  `snap t` is the value
`get_pagination_state()` would return at instant `t`. -/
def go_to_next_results_page_wait (before : PagState) (snap : ℕ → PagState) :
    ℕ × Bool :=
  runWait 200 6 (by omega) (fun t => state_changed before (snap t)) 0

/-- The thank-you redirect wait of `_wait_for_thank_you_redirect`
(lines 603-632): budget `max_wait` seconds, 1 s sleep per iteration; the
check is whether any open tab's URL contains `"/thank-you/"`.  `tabs t` is
the list of the URLs of all open tabs at instant `t` (the current tab and
the iterated `window_handles`). -/
def wait_for_thank_you_redirect (max_wait : ℕ) (tabs : ℕ → List String) :
    ℕ × Bool :=
  runWaitPoll max_wait 1 (by omega)
    (fun t => (tabs t).any (fun u => strContains u "/thank-you/")) 0

/-! ## Nvidia bot: `robust_click` (lines 111-128)

Three click strategies, each wrapped in `try/except` over everything:
1. `element.click()`;
2. `execute_script` scroll-into-center followed by `execute_script` click
   (one stage: an error in either script falls through);
3. `ActionChains(driver).move_to_element(element).pause(0.1).click().perform()`.

The browser-side behaviour of one call is modelled by a `Bool` per stage:
`true` = the calls of that stage return normally, `false` = some call of
that stage raises.  The embedding also records, in order, which stages
were attempted. -/

/-- Which of the three stages of `robust_click` would succeed on this
element in the current page state. -/
structure ClickStages where
  direct_click : Bool
  js_scroll_click : Bool
  action_chains : Bool
deriving DecidableEq, Repr

/-- Attempting one stage: appends its index to the log and reports whether
it succeeded (`false` = the stage raised and the `except` was taken). -/
def attemptStage (ok : Bool) (log : List ℕ) (i : ℕ) : List ℕ × Bool :=
  (log ++ [i], ok)

/-- `robust_click` (lines 111-128): returns the Python return value and the
ordered list of attempted stages. -/
def robust_click (s : ClickStages) : Bool × List ℕ :=
  let (log, r) := attemptStage s.direct_click [] 1
  if r then (true, log)
  else
    let (log, r) := attemptStage s.js_scroll_click log 2
    if r then (true, log)
    else
      let (log, r) := attemptStage s.action_chains log 3
      if r then (true, log) else (false, log)

/-- Stage index to its success flag (indices 1, 2, 3 in source order). -/
def stageOk (s : ClickStages) : ℕ → Bool
  | 1 => s.direct_click
  | 2 => s.js_scroll_click
  | 3 => s.action_chains
  | _ => false

/-! ## `safe_click` (Nvidia lines 130-135) and `safe_find` (IAI lines 124-128)

Both wrap a `WebDriverWait(...).until(...)` in `try/except` and convert the
exception into a plain value.  The wait's own outcome is passed in as an
`Except`: `Except.error ()` stands for the raised exception
(`TimeoutException` for an element that never became
clickable/present within the budget). -/

/-- `safe_find` (IAI, lines 124-128): `try: return wait(...) except
TimeoutException: return None`. -/
def safe_find {E : Type} (waitResult : Except Unit E) : Option E :=
  match waitResult with
  | .ok e => some e
  | .error _ => none

/-- `safe_click` (Nvidia, lines 130-135): resolve a clickable element, then
`robust_click` it; any exception yields `False`. -/
def safe_click {E : Type} (waitResult : Except Unit E) (s : ClickStages) :
    Bool :=
  match waitResult with
  | .ok _ => (robust_click s).1
  | .error _ => false

/-! ## Ordered locator chains (Nvidia lines 239-250 and 450-457)

`part1_login` iterates `sign_in_locators`, waiting for presence of each in
turn and keeping the first element that `is_displayed()`;
`apply_flow_for_current_job` uses `any(safe_click(driver, loc) for loc in
apply_locators)`, which also tries the locators in order and stops at the
first success.  One attempt's outcome is either a timeout of the presence
wait or a present element together with its visibility. -/

/-- Outcome of attempting one locator of an ordered chain. -/
inductive LocOutcome where
  /-- The presence wait raised `TimeoutException`. -/
  | timeout : LocOutcome
  /-- An element was present; the payload is its `is_displayed()` value. -/
  | found (displayed : Bool) : LocOutcome
deriving DecidableEq, Repr

/-- Did this attempt resolve a visible element (`break` in `part1_login`,
`True` from `safe_click` in the `any(...)` chains)? -/
def locSuccess : LocOutcome → Bool
  | .found true => true
  | _ => false

/-- Index of the locator the chain resolves with, if any: the loop body of
lines 240-247 (and the short-circuit of `any(...)`). -/
def resolve_first : List LocOutcome → Option ℕ
  | [] => none
  | o :: rest =>
    if locSuccess o then some 0 else (resolve_first rest).map (· + 1)

/-- How many locators of the chain are attempted before it stops. -/
def tried_count : List LocOutcome → ℕ
  | [] => 0
  | o :: rest => if locSuccess o then 1 else 1 + tried_count rest

/-! ## `switch_to_frame_containing` (Nvidia lines 80-109)

The function first waits for the locator in the default content; on
timeout it iterates the top-level iframes (`f1`), and for each `f1` that
times out it iterates the iframes inside `f1` (`f2`).  Every attempt
starts with `driver.switch_to.default_content()` and then switches down
the frame path, so each attempt is performed from a freshly restored
default context.  On success the driver is left inside the found frame;
when everything up to depth 2 is exhausted the function restores the
default content and raises `NoSuchElementException`.

A context is named by its frame path from the default content: `[]` is
the primary document, `[i]` the `i`-th top-level iframe, `[i, j]` the
`j`-th iframe inside it.  Depth-3 frames exist in the model
(`Frame2.kids`) but the code never descends into them. -/

/-- A frame nested three levels deep: the search never enters it. -/
structure Frame3 where
  has : Bool
deriving DecidableEq, Repr

/-- A frame nested two levels deep. -/
structure Frame2 where
  has : Bool
  kids : List Frame3
deriving DecidableEq, Repr

/-- A top-level iframe of the page. -/
structure Frame1 where
  has : Bool
  kids : List Frame2
deriving DecidableEq, Repr

/-- The page: whether the locator is present in the primary document, and
the top-level iframes. -/
structure Page where
  has : Bool
  frames : List Frame1
deriving DecidableEq, Repr

/-- How `switch_to_frame_containing` delivers its outcome. -/
inductive FrameResult where
  /-- Normal return, driver left switched into context `ctx`. -/
  | found (ctx : List ℕ) : FrameResult
  /-- `driver.switch_to.default_content()` followed by
  `raise NoSuchElementException(...)` (line 108-109). -/
  | notFoundRaised : FrameResult
deriving DecidableEq, Repr

/-- The inner `for f2 in ...` loop (lines 98-106): `i` is the index of the
enclosing top-level frame, `j` the index of the first remaining kid.
Returns the contexts attempted (in order) and the found context, if any. -/
def searchKids (i : ℕ) (kids : List Frame2) (j : ℕ) :
    List (List ℕ) × Option (List ℕ) :=
  match kids with
  | [] => ([], none)
  | k :: rest =>
    if k.has then ([[i, j]], some [i, j])
    else
      let (vs, r) := searchKids i rest (j + 1)
      ([i, j] :: vs, r)

/-- The outer `for f1 in ...` loop (lines 91-106): `i` is the index of the
first remaining top-level frame. -/
def searchFrames (frames : List Frame1) (i : ℕ) :
    List (List ℕ) × Option (List ℕ) :=
  match frames with
  | [] => ([], none)
  | f :: rest =>
    if f.has then ([[i]], some [i])
    else
      let (vs1, r1) := searchKids i f.kids 0
      match r1 with
      | some c => ([i] :: vs1, some c)
      | none =>
        let (vs2, r2) := searchFrames rest (i + 1)
        ([i] :: (vs1 ++ vs2), r2)

/-- `switch_to_frame_containing` (lines 80-109): the ordered list of
contexts in which the locator's presence is awaited, and the outcome. -/
def switch_to_frame_containing (p : Page) : List (List ℕ) × FrameResult :=
  if p.has then ([[]], .found [])
  else
    let (vs, r) := searchFrames p.frames 0
    match r with
    | some c => ([] :: vs, .found c)
    | none => ([] :: vs, .notFoundRaised)

/-- Is the locator present in the context named by this path? -/
def hasAt (p : Page) : List ℕ → Bool
  | [] => p.has
  | [i] =>
    match p.frames[i]? with
    | some f => f.has
    | none => false
  | [i, j] =>
    match p.frames[i]? with
    | some f =>
      match f.kids[j]? with
      | some k => k.has
      | none => false
    | none => false
  | _ => false

/-- Contexts `[i, j], [i, j+1], ...` of the kids of top-level frame `i`,
starting at kid index `j`. -/
def kidCtxs (i j : ℕ) : List Frame2 → List (List ℕ)
  | [] => []
  | _ :: rest => [i, j] :: kidCtxs i (j + 1) rest

/-- Depth-first context order over top-level frames starting at index `i`:
each frame followed by all its kids, then the next frame. -/
def frameCtxs (i : ℕ) : List Frame1 → List (List ℕ)
  | [] => []
  | f :: rest => [i] :: (kidCtxs i 0 f.kids ++ frameCtxs (i + 1) rest)

/-- The order in which the code visits contexts: the primary document,
then for each top-level frame the frame itself followed by its children —
a preorder depth-first traversal bounded at depth 2. -/
def dfsContextOrder (p : Page) : List (List ℕ) :=
  [] :: frameCtxs 0 p.frames

/-- The depth-1 contexts `[i], [i+1], ...`. -/
def depth1Ctxs (i : ℕ) : List Frame1 → List (List ℕ)
  | [] => []
  | _ :: rest => [i] :: depth1Ctxs (i + 1) rest

/-- All depth-2 contexts, frame by frame. -/
def depth2Ctxs (i : ℕ) : List Frame1 → List (List ℕ)
  | [] => []
  | f :: rest => kidCtxs i 0 f.kids ++ depth2Ctxs (i + 1) rest

/-- Spec-side order, written from the claim text (breadth-first at each
level): the primary document, then every depth-1 context, then every
depth-2 context. -/
def bfsContextOrder (p : Page) : List (List ℕ) :=
  [] :: (depth1Ctxs 0 p.frames ++ depth2Ctxs 0 p.frames)

/-- Linear scan of a list of contexts with a presence check: visits each in
turn, stops at the first hit.  Reference shape against which the nested
loops of `switch_to_frame_containing` are characterised. -/
def scanCtxs (pred : List ℕ → Bool) : List (List ℕ) → List (List ℕ) × Option (List ℕ)
  | [] => ([], none)
  | c :: rest =>
    if pred c then ([c], some c)
    else
      let (vs, r) := scanCtxs pred rest
      (c :: vs, r)

/-! ## IAI bot: `_recaptcha_visible` (lines 634-649) and the CAPTCHA pause
of `_submit_with_captcha_and_wait_thank_you` (lines 579-592) -/

/-- The observations `_recaptcha_visible` makes: the current tab's URL, the
number of `iframe[src*='recaptcha']` elements and the number of visible
reCAPTCHA widget boxes. -/
structure IAIPage where
  cur_url : String
  recaptcha_iframes : ℕ
  recaptcha_boxes : ℕ
deriving DecidableEq, Repr

/-- `_recaptcha_visible` (lines 634-649): on a `/thank-you/` URL every
captcha signal is ignored; otherwise report whether any iframe or widget
box was found. -/
def recaptcha_visible (p : IAIPage) : Bool :=
  if strContains p.cur_url "/thank-you/" then false
  else if 0 < p.recaptcha_iframes then true
  else 0 < p.recaptcha_boxes

/-- The CAPTCHA pause decision of `_submit_with_captcha_and_wait_thank_you`
(lines 579-592): after the click, an initial thank-you wait runs; only
when it failed does the flow consult `_recaptcha_visible` and pause.
`initialRedirect` is the result of that initial wait, `p` the page state
at the moment of the check. -/
def submitCaptchaPause (initialRedirect : Bool) (p : IAIPage) : Bool :=
  if initialRedirect then false else recaptcha_visible p

/-! ## IAI bot: Python URL machinery used by `compute_next_list_url`
(lines 178-210)

`compute_next_list_url` relies on `urllib.parse`: `urlparse`, `parse_qs`,
`urlencode` (whose default quoting is `quote_plus`) and `urlunparse`, and
on `int(...)` and `str(...)`.  These are embedded below, translated from
CPython's `Lib/urllib/parse.py`, with two documented simplifications:

* percent-decoding is byte-by-byte (`%HH` becomes the character with code
  `HH`) instead of decoding the resulting byte sequence as UTF-8, and
  `int(...)` accepts ASCII digits and ASCII whitespace only (CPython also
  accepts non-ASCII digit and space characters);
* a netloc with unbalanced square brackets makes CPython's `urlsplit`
  raise (which `compute_next_list_url`'s outer `try/except` turns into
  `None`); here it parses as an ordinary netloc, which then fails the
  netloc comparison and also yields `None`.
-/

/-- `breakAt p l = (before, some after)` splits at the first character
satisfying `p`, dropping it; `(l, none)` if there is none. -/
def breakAt (p : Char → Bool) : List Char → List Char × Option (List Char)
  | [] => ([], none)
  | c :: rest =>
    if p c then ([], some rest)
    else
      let (a, b) := breakAt p rest
      (c :: a, b)

/-- Python `s.split(ch, 1)` when `ch` occurs, else the identity split. -/
def cutAtFirst (ch : Char) (l : List Char) : List Char × List Char :=
  match breakAt (fun c => c = ch) l with
  | (before, some after) => (before, after)
  | (_, none) => (l, [])

/-- The characters allowed in a URL scheme (`scheme_chars` of
`urllib.parse`). -/
def schemeChars : List Char :=
  "abcdefghijklmnopqrstuvwxyzABCDEFGHIJKLMNOPQRSTUVWXYZ0123456789+-.".data

/-- The scheme detection of `urlsplit`: a leading `name:` is a scheme when
`name` is non-empty, starts with an ASCII letter and consists of scheme
characters; the scheme is lowercased. -/
def splitScheme (l : List Char) : String × List Char :=
  match breakAt (fun c => c = ':') l with
  | (before, some rest) =>
    if before ≠ [] ∧ (before.headD ' ').isAlpha = true ∧ ∀ c ∈ before, c ∈ schemeChars then
      (⟨before.map Char.toLower⟩, rest)
    else ("", l)
  | (_, none) => ("", l)

/-- Characters ending the netloc in `_splitnetloc`. -/
def netlocDelim (c : Char) : Bool := c = '/' || c = '?' || c = '#'

/-- `_splitnetloc`: after a leading `//`, the netloc runs to the first
`/`, `?` or `#`, which stays with the remainder. -/
def splitNetloc (l : List Char) : String × List Char :=
  match l with
  | '/' :: '/' :: rest =>
    (⟨rest.takeWhile (fun c => !netlocDelim c)⟩,
      rest.dropWhile (fun c => !netlocDelim c))
  | _ => ("", l)

/-- `_splitparams` of `urlparse`: split `;params` off the path, but only
when the `;` occurs in the last path segment. -/
def splitParamsChars (l : List Char) : List Char × List Char :=
  if l.contains ';' then
    if l.contains '/' then
      let seg := (l.reverse.takeWhile (fun c => c ≠ '/')).reverse
      let pre := l.take (l.length - seg.length)
      match breakAt (fun c => c = ';') seg with
      | (before, some after) => (pre ++ before, after)
      | (_, none) => (l, [])
    else cutAtFirst ';' l
  else (l, [])

/-- The result of Python `urlparse`. -/
structure UrlParts where
  scheme : String
  netloc : String
  path : String
  params : String
  query : String
  fragment : String
deriving DecidableEq, Repr

/-- Python `urllib.parse.urlparse`: remove tab/CR/LF, split the scheme,
the `//netloc`, the `#fragment`, the `?query` and the `;params`, in that
order. -/
def pyUrlparse (s : String) : UrlParts :=
  let l := s.data.filter (fun c => !(c == '\t' || c == '\r' || c == '\n'))
  let sl := splitScheme l
  let nl := splitNetloc sl.2
  let ff := cutAtFirst '#' nl.2
  let qq := cutAtFirst '?' ff.1
  let pp := splitParamsChars qq.1
  ⟨sl.1, nl.1, ⟨pp.1⟩, ⟨pp.2⟩, ⟨qq.2⟩, ⟨ff.2⟩⟩

/-- Python `s.split(sep)` (all occurrences, empty chunks kept):
auxiliary returning the first chunk and the remaining chunks. -/
def pySplitAux (sep : Char) : List Char → List Char × List (List Char)
  | [] => ([], [])
  | c :: rest =>
    let (h, t) := pySplitAux sep rest
    if c = sep then ([], h :: t) else (c :: h, t)

/-- Python `s.split(sep)`; note `"".split(sep) == [""]`. -/
def pySplitChar (sep : Char) (l : List Char) : List (List Char) :=
  (pySplitAux sep l).1 :: (pySplitAux sep l).2

/-- Value of an ASCII hex digit (`_hextobyte` accepts both cases). -/
def hexVal (c : Char) : Option ℕ :=
  if '0' ≤ c ∧ c ≤ '9' then some (c.toNat - 48)
  else if 'A' ≤ c ∧ c ≤ 'F' then some (c.toNat - 55)
  else if 'a' ≤ c ∧ c ≤ 'f' then some (c.toNat - 87)
  else none

/-- Python `unquote_plus` on char lists: `+` becomes a space and each
valid `%HH` escape becomes the character of code `HH`; invalid escapes
are kept literally. -/
def unquoteChars : List Char → List Char
  | [] => []
  | '%' :: a :: b :: rest =>
    match hexVal a, hexVal b with
    | some x, some y => Char.ofNat (16 * x + y) :: unquoteChars rest
    | _, _ => '%' :: unquoteChars (a :: b :: rest)
  | '+' :: rest => ' ' :: unquoteChars rest
  | c :: rest => c :: unquoteChars rest

/-- Python `urllib.parse.unquote_plus`. -/
def unquote_plus (s : String) : String := ⟨unquoteChars s.data⟩

/-- The characters `quote` never escapes (letters, digits, `_.-~`). -/
def alwaysSafeChar (c : Char) : Bool :=
  c.isAlpha || c.isDigit || c == '_' || c == '.' || c == '-' || c == '~'

/-- UTF-8 encoding of a code point. -/
def utf8Bytes (n : ℕ) : List ℕ :=
  if n < 128 then [n]
  else if n < 2048 then [192 + n / 64, 128 + n % 64]
  else if n < 65536 then [224 + n / 4096, 128 + n / 64 % 64, 128 + n % 64]
  else [240 + n / 262144, 128 + n / 4096 % 64, 128 + n / 64 % 64, 128 + n % 64]

/-- Uppercase hex digit, as produced by `quote`. -/
def hexDigitU (x : ℕ) : Char := "0123456789ABCDEF".data.getD x '0'

/-- A `%HH` escape for one byte. -/
def percentHex (b : ℕ) : List Char := ['%', hexDigitU (b / 16), hexDigitU (b % 16)]

/-- Python `quote_plus` on one character: safe characters pass through,
a space becomes `+`, everything else becomes the `%HH` escapes of its
UTF-8 bytes. -/
def quoteChar (c : Char) : List Char :=
  if alwaysSafeChar c then [c]
  else if c = ' ' then ['+']
  else (utf8Bytes c.toNat).flatMap percentHex

/-- Python `urllib.parse.quote_plus` (the default `quote_via` of
`urlencode`). -/
def quote_plus (s : String) : String := ⟨s.data.flatMap quoteChar⟩

/-- The per-character effect of `unquote_plus` after `quote_plus` (used to
state the round-trip lemmas): safe characters and the space round-trip;
any other character comes back as the characters of its UTF-8 bytes (the
byte-level decoding model documented above). -/
def decodeChar (c : Char) : List Char :=
  if alwaysSafeChar c then [c]
  else if c = ' ' then [' ']
  else (utf8Bytes c.toNat).map (fun b => Char.ofNat b)

/-- First value for a key in a flat pair list (reference lookup used to
characterise `parse_qs` groupings). -/
def pairsFirst (pairs : List (String × String)) (k : String) : Option String :=
  (pairs.find? (fun kv => kv.1 == k)).map (fun kv => kv.2)

/-- One `name=value` chunk of `parse_qsl` with the default options: an
empty chunk, a chunk without `=` and a chunk with an empty value are all
skipped; name and value are `unquote_plus`-decoded. -/
def parsePair (l : List Char) : Option (String × String) :=
  if l = [] then none
  else
    match breakAt (fun c => c = '=') l with
    | (_, none) => none
    | (name, some value) =>
      if value = [] then none
      else some (unquote_plus ⟨name⟩, unquote_plus ⟨value⟩)

/-- Python `parse_qsl(q)` with default options (separator `&`). -/
def parse_qsl (q : String) : List (String × String) :=
  (pySplitChar '&' q.data).filterMap parsePair

/-- Appending one value to a query dict, preserving first-appearance key
order (how `parse_qs` builds its dict). -/
def qsInsert (l : List (String × List String)) (k v : String) :
    List (String × List String) :=
  match l with
  | [] => [(k, [v])]
  | (k1, vs) :: rest =>
    if k1 = k then (k1, vs ++ [v]) :: rest
    else (k1, vs) :: qsInsert rest k v

/-- Python `parse_qs(q)`: the pairs of `parse_qsl` grouped into an ordered
dict of value lists. -/
def parse_qs (q : String) : List (String × List String) :=
  (parse_qsl q).foldl (fun acc kv => qsInsert acc kv.1 kv.2) []

/-- Dict lookup (`k in qs`, `qs[k]`, `qs.get(k, ...)`). -/
def qsFind (l : List (String × List String)) (k : String) :
    Option (List String) :=
  match l with
  | [] => none
  | (k1, vs) :: rest => if k1 = k then some vs else qsFind rest k

/-- First value of a key, when the key is present with a non-empty list
(`qs[k][0]`; an empty list or an absent key gives `none`, matching the
`IndexError`-to-`None` and default-`None` paths of the source). -/
def qsFirstVal (l : List (String × List String)) (k : String) :
    Option String :=
  (qsFind l k).bind List.head?

/-- Python dict assignment `qs[k] = vs`: replaces in place, or appends a
new key at the end. -/
def qsSet (l : List (String × List String)) (k : String) (vs : List String) :
    List (String × List String) :=
  match l with
  | [] => [(k, vs)]
  | (k1, vs1) :: rest =>
    if k1 = k then (k1, vs) :: rest
    else (k1, vs1) :: qsSet rest k vs

/-- The comprehension `{k: v[0] for k, v in qs.items()}`. -/
def firstVals (l : List (String × List String)) : List (String × String) :=
  l.filterMap (fun kv => kv.2.head?.map (fun v => (kv.1, v)))

/-- ASCII whitespace stripped by `int(str)`. -/
def isPySpace (c : Char) : Bool :=
  c == ' ' || c == '\t' || c == '\n' || c == '\r' || c == '\x0B' || c == '\x0C'

/-- Digit run of an integer literal, with single underscores allowed
between digits only; `acc` is the value of the digits already read. -/
def digitsLoopVal (acc : ℕ) : List Char → Option ℕ
  | [] => some acc
  | c :: rest =>
    if c = '_' then
      match rest with
      | [] => none
      | d :: rest2 =>
        if d.isDigit then digitsLoopVal (10 * acc + (d.toNat - 48)) rest2 else none
    else if c.isDigit then digitsLoopVal (10 * acc + (c.toNat - 48)) rest else none

/-- A non-empty digit run starting with a digit. -/
def digitsVal : List Char → Option ℕ
  | [] => none
  | c :: rest =>
    if c.isDigit then digitsLoopVal (c.toNat - 48) rest else none

/-- Python `int(s)` (ASCII model): optional surrounding whitespace, an
optional sign, then digits with optional single underscores between
digits; `none` models the raised `ValueError`. -/
def pyInt (s : String) : Option ℤ :=
  match ((s.data.dropWhile isPySpace).reverse.dropWhile isPySpace).reverse with
  | [] => none
  | c :: rest =>
    if c = '+' then (digitsVal rest).map (fun n => (n : ℤ))
    else if c = '-' then (digitsVal rest).map (fun n => -(n : ℤ))
    else (digitsVal (c :: rest)).map (fun n => (n : ℤ))

/-- Decimal digits of `n`, most significant first (`fuel`-powered so that
the kernel can evaluate it; `fuel ≥ `number of digits suffices). -/
def natDigitsAux : ℕ → ℕ → List Char
  | 0, _ => []
  | fuel + 1, n =>
    if n < 10 then [Char.ofNat (48 + n)]
    else natDigitsAux fuel (n / 10) ++ [Char.ofNat (48 + n % 10)]

/-- Python `str(n)` for a natural number. -/
def pyStrOfNat (n : ℕ) : String := ⟨natDigitsAux (n + 1) n⟩

/-- Python `'&'.join(parts)`. -/
def joinAmp : List (List Char) → List Char
  | [] => []
  | [x] => x
  | x :: y :: rest => x ++ '&' :: joinAmp (y :: rest)

/-- Python `urlencode(d)` with the default `quote_via=quote_plus`. -/
def pyUrlencode (items : List (String × String)) : String :=
  ⟨joinAmp
    (items.map (fun kv => (quote_plus kv.1).data ++ '=' :: (quote_plus kv.2).data))⟩

/-- Python `urlunparse((scheme, netloc, path, params, query, ''))`. -/
def pyUrlunparse (scheme netloc path params query : String) : String :=
  let url0 := if params != "" then path ++ ";" ++ params else path
  let url1 :=
    if netloc != "" || charsStartWith url0.data ['/', '/'] then
      "//" ++ netloc ++
        (if url0 != "" && !charsStartWith url0.data ['/'] then "/" ++ url0 else url0)
    else url0
  let url2 := if scheme != "" then scheme ++ ":" ++ url1 else url1
  if query != "" then url2 ++ "?" ++ query else url2

/-- `BASE_LIST_URL` of `bot_Job_IAI_main.py`. -/
def BASE_LIST_URL : String := "https://jobs.iai.co.il/jobs/?pr=41"

/-- `compute_next_list_url` (IAI lines 178-210). -/
def compute_next_list_url (current_url : String) : Option String :=
  let parsed := pyUrlparse current_url
  if parsed.netloc != (pyUrlparse BASE_LIST_URL).netloc then none
  else if parsed.path != "/jobs/" then none
  else
    let qs := parse_qs parsed.query
    if qsFirstVal qs "pr" != some "41" then none
    else
      let nextPg :=
        match qsFind qs "pg" with
        | none => some 2
        | some vs =>
          match vs.head? with
          | none => none
          | some v =>
            match pyInt v with
            | none => none
            | some x => if x < 1 ∨ 1000 < x then none else some (x.toNat + 1)
      match nextPg with
      | none => none
      | some npg =>
        let qs1 := qsSet qs "pg" [pyStrOfNat npg]
        some (pyUrlunparse parsed.scheme parsed.netloc parsed.path ""
          (pyUrlencode (firstVals qs1)))

/-- `n` successive URL-computed pagination advances. -/
def advanceN : ℕ → String → Option String
  | 0, u => some u
  | n + 1, u => (compute_next_list_url u).bind (advanceN n)

/-- The `pg` position of a list URL: the parsed first `pg` value, or `1`
when `pg` is absent (the position `compute_next_list_url` advances from). -/
def pgDefault (u : String) : Option ℤ :=
  match qsFind (parse_qs (pyUrlparse u).query) "pg" with
  | none => some 1
  | some vs => vs.head?.bind pyInt

/-! ## IAI bot: the pagination loop of `IAIApplicationBot.run`
(lines 685-729) and `goto_list_url` (lines 169-176)

`goto_list_url(u)` navigates to `u` and adds the *post-load* URL
(`driver.current_url`, modelled by `load u`) to `visited_urls`.  The loop
computes `next_url` from the current URL, stops when it is `None`, when
the `--pages` limit is reached, or when `next_url` was already visited;
otherwise it navigates there.  A state captures the visited set and the
current list URL; one `stepNav` is one loop iteration's navigation
decision, returning the navigated URL and the new state. -/

/-- The mutable state of the pagination loop. -/
structure BotState where
  visited_urls : List String
  current : String
deriving DecidableEq, Repr

/-- `len([u for u in self.visited_urls if "/jobs/" in u and "pr=41" in u])`
(line 715). -/
def pagesDone (visited : List String) : ℕ :=
  (visited.filter (fun u => strContains u "/jobs/" && strContains u "pr=41")).length

/-- One iteration of the `while True` loop of `run` (lines 696-728),
reduced to its navigation decision: compute the next URL, stop on `None`,
on the `--pages` limit, or on an already-visited URL; otherwise navigate
(`goto_list_url`) and record the post-load URL. -/
def stepNav (load : String → String) (max_pages start_page : ℕ)
    (s : BotState) : Option (String × BotState) :=
  match compute_next_list_url s.current with
  | none => none
  | some next =>
    if 0 < max_pages ∧ max_pages + (start_page - 1) ≤ pagesDone s.visited_urls then
      none
    else if next ∈ s.visited_urls then none
    else some (next, ⟨s.visited_urls.insert (load next), load next⟩)

/-- Up to `fuel` iterations of the pagination loop: the URLs navigated to,
in order, and the final state. -/
def runPages (load : String → String) (mp sp : ℕ) :
    ℕ → BotState → List String × BotState
  | 0, s => ([], s)
  | fuel + 1, s =>
    match stepNav load mp sp s with
    | none => ([], s)
    | some (u, s1) =>
      let (us, sf) := runPages load mp sp fuel s1
      (u :: us, sf)

/-! # Theorems -/

/-! ## Generic lemmas about the two polling loop shapes -/

theorem runWait_eq (b i : ℕ) (hi : 0 < i) (conv : ℕ → Bool) (t : ℕ) :
    runWait b i hi conv t =
      if t < b then
        (if conv (t + i) = true then (t + i, true)
         else runWait b i hi conv (t + i))
      else (t, false) := by
  rw [runWait]
  by_cases h : t < b <;> simp [h]

theorem runWaitPoll_eq (b i : ℕ) (hi : 0 < i) (conv : ℕ → Bool) (t : ℕ) :
    runWaitPoll b i hi conv t =
      if t < b then
        (if conv t = true then (t, true)
         else runWaitPoll b i hi conv (t + i))
      else (t, false) := by
  rw [runWaitPoll]
  by_cases h : t < b <;> simp [h]

theorem runWait_true_iff (b i : ℕ) (hi : 0 < i) (conv : ℕ → Bool) (t : ℕ) :
    (runWait b i hi conv t).2 = true ↔
      ∃ m, t + i * m < b ∧ conv (t + i * (m + 1)) = true := by
  have key : ∀ n t, b - t ≤ n →
      ((runWait b i hi conv t).2 = true ↔
        ∃ m, t + i * m < b ∧ conv (t + i * (m + 1)) = true) := by
    intro n
    induction n with
    | zero =>
      intro t hn
      rw [runWait_eq, if_neg (by omega)]
      constructor
      · intro h; exact absurd h (by simp)
      · rintro ⟨m, hm, -⟩
        exact absurd hm (by have := Nat.le_add_right t (i * m); omega)
    | succ n ih =>
      intro t hn
      by_cases ht : t < b
      · rw [runWait_eq, if_pos ht]
        by_cases hc : conv (t + i) = true
        · rw [if_pos hc]
          constructor
          · intro _
            refine ⟨0, by simpa using ht, ?_⟩
            simpa using hc
          · intro _; simp
        · rw [if_neg hc, ih (t + i) (by omega)]
          constructor
          · rintro ⟨m, hm1, hm2⟩
            refine ⟨m + 1, ?_, ?_⟩
            · have he : t + i * (m + 1) = t + i + i * m := by ring
              omega
            · rwa [show t + i * (m + 1 + 1) = t + i + i * (m + 1) from by ring]
          · rintro ⟨m, hm1, hm2⟩
            match m with
            | 0 =>
              exact absurd (by simpa using hm2) hc
            | m + 1 =>
              refine ⟨m, ?_, ?_⟩
              · have he : t + i * (m + 1) = t + i + i * m := by ring
                omega
              · rwa [show t + i + i * (m + 1) = t + i * (m + 1 + 1) from by ring]
      · rw [runWait_eq, if_neg ht]
        constructor
        · intro h; exact absurd h (by simp)
        · rintro ⟨m, hm, -⟩
          exact absurd hm (by have := Nat.le_add_right t (i * m); omega)
  exact key (b - t) t le_rfl

theorem runWaitPoll_true_iff (b i : ℕ) (hi : 0 < i) (conv : ℕ → Bool) (t : ℕ) :
    (runWaitPoll b i hi conv t).2 = true ↔
      ∃ m, t + i * m < b ∧ conv (t + i * m) = true := by
  have key : ∀ n t, b - t ≤ n →
      ((runWaitPoll b i hi conv t).2 = true ↔
        ∃ m, t + i * m < b ∧ conv (t + i * m) = true) := by
    intro n
    induction n with
    | zero =>
      intro t hn
      rw [runWaitPoll_eq, if_neg (by omega)]
      constructor
      · intro h; exact absurd h (by simp)
      · rintro ⟨m, hm, -⟩
        exact absurd hm (by have := Nat.le_add_right t (i * m); omega)
    | succ n ih =>
      intro t hn
      by_cases ht : t < b
      · rw [runWaitPoll_eq, if_pos ht]
        by_cases hc : conv t = true
        · rw [if_pos hc]
          constructor
          · intro _
            exact ⟨0, by simpa using ht, by simpa using hc⟩
          · intro _; simp
        · rw [if_neg hc, ih (t + i) (by omega)]
          constructor
          · rintro ⟨m, hm1, hm2⟩
            refine ⟨m + 1, ?_, ?_⟩
            · have he : t + i * (m + 1) = t + i + i * m := by ring
              omega
            · rwa [show t + i * (m + 1) = t + i + i * m from by ring]
          · rintro ⟨m, hm1, hm2⟩
            match m with
            | 0 =>
              exact absurd (by simpa using hm2) hc
            | m + 1 =>
              refine ⟨m, ?_, ?_⟩
              · have he : t + i * (m + 1) = t + i + i * m := by ring
                omega
              · rwa [show t + i + i * m = t + i * (m + 1) from by ring]
      · rw [runWaitPoll_eq, if_neg ht]
        constructor
        · intro h; exact absurd h (by simp)
        · rintro ⟨m, hm, -⟩
          exact absurd hm (by have := Nat.le_add_right t (i * m); omega)
  exact key (b - t) t le_rfl

theorem runWait_fst_lt (b i : ℕ) (hi : 0 < i) (conv : ℕ → Bool) (t : ℕ)
    (ht : t < b + i) : (runWait b i hi conv t).1 < b + i := by
  have key : ∀ n t, b - t ≤ n → t < b + i →
      (runWait b i hi conv t).1 < b + i := by
    intro n
    induction n with
    | zero =>
      intro t hn ht
      rw [runWait_eq, if_neg (by omega)]
      exact ht
    | succ n ih =>
      intro t hn ht
      by_cases h1 : t < b
      · rw [runWait_eq, if_pos h1]
        by_cases hc : conv (t + i) = true
        · rw [if_pos hc]; simpa using by omega
        · rw [if_neg hc]
          exact ih (t + i) (by omega) (by omega)
      · rw [runWait_eq, if_neg h1]
        exact ht
  exact key (b - t) t le_rfl ht

theorem runWaitPoll_fst_lt (b i : ℕ) (hi : 0 < i) (conv : ℕ → Bool) (t : ℕ)
    (ht : t < b + i) : (runWaitPoll b i hi conv t).1 < b + i := by
  have key : ∀ n t, b - t ≤ n → t < b + i →
      (runWaitPoll b i hi conv t).1 < b + i := by
    intro n
    induction n with
    | zero =>
      intro t hn ht
      rw [runWaitPoll_eq, if_neg (by omega)]
      exact ht
    | succ n ih =>
      intro t hn ht
      by_cases h1 : t < b
      · rw [runWaitPoll_eq, if_pos h1]
        by_cases hc : conv t = true
        · rw [if_pos hc]; omega
        · rw [if_neg hc]
          exact ih (t + i) (by omega) (by omega)
      · rw [runWaitPoll_eq, if_neg h1]
        exact ht
  exact key (b - t) t le_rfl ht

/-- The code's convergence check agrees with the spec-side predicate. -/
theorem state_changed_iff (b a : PagState) :
    state_changed b a = true ↔ sharedNonEmptySignalDiffers b a := by
  simp only [state_changed, signal_changed, sharedNonEmptySignalDiffers,
    Bool.or_eq_true, Bool.and_eq_true, bne_iff_ne]
  tauto

/-- C1: in the pagination-change detection loop, if some poll within the
20 s budget observes a snapshot in which a signal that is non-empty in
both the before-snapshot and that snapshot differs, the wait returns
`True` (Converged) — whatever the other signals do; a comparison of two
snapshots whose shared signals are all equal or empty is never reported
as a change; and if no poll within the budget observes such a difference
the wait returns `False`.  (Polls happen at instants `6 * (m + 1)`
tenths of a second, guarded by `6 * m < 200`.) -/
theorem claim_C1_convergence_wait (before : PagState) (snap : ℕ → PagState) :
    ((∃ m, 6 * m < 200 ∧ sharedNonEmptySignalDiffers before (snap (6 * (m + 1)))) →
        (go_to_next_results_page_wait before snap).2 = true)
  ∧ (∀ a, ¬ sharedNonEmptySignalDiffers before a → state_changed before a = false)
  ∧ ((∀ m, 6 * m < 200 → ¬ sharedNonEmptySignalDiffers before (snap (6 * (m + 1)))) →
        (go_to_next_results_page_wait before snap).2 = false) := by
  refine ⟨?_, ?_, ?_⟩
  · rintro ⟨m, hm1, hm2⟩
    simp only [go_to_next_results_page_wait]
    rw [runWait_true_iff]
    exact ⟨m, by omega, by rw [Nat.zero_add, state_changed_iff]; exact hm2⟩
  · intro a h
    exact Bool.eq_false_iff.mpr (fun hh => h ((state_changed_iff _ _).1 hh))
  · intro h
    refine Bool.eq_false_iff.mpr (fun hh => ?_)
    simp only [go_to_next_results_page_wait] at hh
    rw [runWait_true_iff] at hh
    obtain ⟨m, hm1, hm2⟩ := hh
    rw [Nat.zero_add] at hm1 hm2
    exact h m hm1 ((state_changed_iff _ _).1 hm2)

/-- Witness for C1: only the page label changes (the two other signals are
unchanged), and the wait converges. -/
theorem claim_C1_witness :
    (go_to_next_results_page_wait ⟨"1", "1-20 of 40", "x"⟩
      (fun _ => ⟨"2", "1-20 of 40", "x"⟩)).2 = true :=
  (claim_C1_convergence_wait ⟨"1", "1-20 of 40", "x"⟩
      (fun _ => ⟨"2", "1-20 of 40", "x"⟩)).1
    ⟨0, by omega, (state_changed_iff _ _).1 (by decide)⟩

/-- Counterexample to C2: with the before-snapshot
`(page="1", count="", firstId="x")` and every later snapshot
`(page="1", count="1-20 of 40", firstId="x")`, the comparison reports no
change (the count signal is empty in the before-snapshot, so line 959's
`before_state[1] and ...` is falsy) and the wait returns `False`
(TimedOut), not Converged. -/
theorem claim_C2_counterexample :
    state_changed ⟨"1", "", "x"⟩ ⟨"1", "1-20 of 40", "x"⟩ = false
  ∧ (go_to_next_results_page_wait ⟨"1", "", "x"⟩
      (fun _ => ⟨"1", "1-20 of 40", "x"⟩)).2 = false := by
  refine ⟨by decide, Bool.eq_false_iff.mpr (fun h => ?_)⟩
  simp only [go_to_next_results_page_wait] at h
  rw [runWait_true_iff] at h
  obtain ⟨m, -, hm⟩ := h
  exact absurd hm (by decide)

/-- C2 (amended): a signal that is empty in the before-snapshot — in
particular one making its first appearance (empty before, populated
after) — never counts as a change; with the page and first-item signals
unchanged, such a check reports no change and the wait returns TimedOut. -/
theorem claim_C2_amended (before after : PagState)
    (hc : before.outof_text = "")
    (hp : after.current_page_label = before.current_page_label)
    (hf : after.first_job_href = before.first_job_href) :
    state_changed before after = false
  ∧ (go_to_next_results_page_wait before (fun _ => after)).2 = false := by
  have hsc : state_changed before after = false := by
    simp [state_changed, signal_changed, hc, hp, hf]
  refine ⟨hsc, Bool.eq_false_iff.mpr (fun h => ?_)⟩
  simp only [go_to_next_results_page_wait] at h
  rw [runWait_true_iff] at h
  obtain ⟨m, -, hm⟩ := h
  rw [hsc] at hm
  exact absurd hm (by simp)

/-- Witness for the amended C2, at the concrete snapshots of the claim. -/
theorem claim_C2_witness :
    state_changed ⟨"1", "", "x"⟩ ⟨"1", "1-20 of 40", "x"⟩ = false
  ∧ (go_to_next_results_page_wait ⟨"1", "", "x"⟩
      (fun _ => ⟨"1", "1-20 of 40", "x"⟩)).2 = false :=
  claim_C2_amended ⟨"1", "", "x"⟩ ⟨"1", "1-20 of 40", "x"⟩ rfl rfl rfl

/-- C5: both convergence waits terminate with `False` (TimedOut) when no
poll within the budget observes a change, and the elapsed time never
exceeds the budget plus one poll interval (Nvidia wait: 200 + 6 tenths
of a second; IAI wait: `max_wait` + 1 seconds) — on every run, converged
or not. -/
theorem claim_C5_wait_termination (before : PagState) (snap : ℕ → PagState)
    (max_wait : ℕ) (tabs : ℕ → List String)
    (h1 : ∀ m, 6 * m < 200 → state_changed before (snap (6 * (m + 1))) = false)
    (h2 : ∀ m, m < max_wait →
      (tabs m).any (fun u => strContains u "/thank-you/") = false) :
    (go_to_next_results_page_wait before snap).2 = false
  ∧ (go_to_next_results_page_wait before snap).1 ≤ 200 + 6
  ∧ (wait_for_thank_you_redirect max_wait tabs).2 = false
  ∧ (wait_for_thank_you_redirect max_wait tabs).1 ≤ max_wait + 1 := by
  refine ⟨?_, ?_, ?_, ?_⟩
  · refine Bool.eq_false_iff.mpr (fun h => ?_)
    simp only [go_to_next_results_page_wait] at h
    rw [runWait_true_iff] at h
    obtain ⟨m, hm1, hm2⟩ := h
    rw [Nat.zero_add] at hm1 hm2
    rw [h1 m hm1] at hm2
    exact absurd hm2 (by simp)
  · have h : (go_to_next_results_page_wait before snap).1 < 200 + 6 :=
      runWait_fst_lt 200 6 (by omega) (fun t => state_changed before (snap t)) 0
        (by omega)
    omega
  · refine Bool.eq_false_iff.mpr (fun h => ?_)
    have h3 : (runWaitPoll max_wait 1 (by omega)
        (fun t => (tabs t).any (fun u => strContains u "/thank-you/")) 0).2 = true := h
    rw [runWaitPoll_true_iff] at h3
    obtain ⟨m, hm1, hm2⟩ := h3
    rw [Nat.zero_add, Nat.one_mul] at hm1 hm2
    rw [h2 m hm1] at hm2
    exact absurd hm2 (by simp)
  · have h : (wait_for_thank_you_redirect max_wait tabs).1 < max_wait + 1 :=
      runWaitPoll_fst_lt max_wait 1 (by omega)
        (fun t => (tabs t).any (fun u => strContains u "/thank-you/")) 0 (by omega)
    omega

/-- Witness for C5: unchanging snapshots and a tab list that never reaches
the thank-you page; both waits time out within their bounds. -/
theorem claim_C5_witness :
    (go_to_next_results_page_wait ⟨"1", "1-20 of 40", "x"⟩
        (fun _ => ⟨"1", "1-20 of 40", "x"⟩)).2 = false
  ∧ (go_to_next_results_page_wait ⟨"1", "1-20 of 40", "x"⟩
        (fun _ => ⟨"1", "1-20 of 40", "x"⟩)).1 ≤ 200 + 6
  ∧ (wait_for_thank_you_redirect 45
        (fun _ => ["https://jobs.iai.co.il/jobs/?pr=41"])).2 = false
  ∧ (wait_for_thank_you_redirect 45
        (fun _ => ["https://jobs.iai.co.il/jobs/?pr=41"])).1 ≤ 45 + 1 :=
  claim_C5_wait_termination ⟨"1", "1-20 of 40", "x"⟩
    (fun _ => ⟨"1", "1-20 of 40", "x"⟩) 45
    (fun _ => ["https://jobs.iai.co.il/jobs/?pr=41"])
    (by
      intro m hm
      show state_changed ⟨"1", "1-20 of 40", "x"⟩ ⟨"1", "1-20 of 40", "x"⟩ = false
      decide)
    (by
      intro m hm
      show (["https://jobs.iai.co.il/jobs/?pr=41"].any
        (fun u => strContains u "/thank-you/")) = false
      decide)

/-! ## C3: the `robust_click` fallback chain -/

/-- C3: `robust_click` attempts the stages in order 1-2-3; it returns
`True` exactly when some stage succeeds and `False` (without raising —
the embedding is total) exactly when all three fail; a stage is attempted
exactly when every earlier stage failed (so no stage after the first
success is attempted, and stage `i` runs only after stages `1..i-1`
raised); and the attempted stages are `[1, 2, 3].take k` for `k` the
number of attempts — i.e. they run in source order without skipping. -/
theorem claim_C3_robust_click (s : ClickStages) :
    ((robust_click s).1 = true ↔
      (s.direct_click = true ∨ s.js_scroll_click = true ∨ s.action_chains = true))
  ∧ ((robust_click s).1 = false ↔
      (s.direct_click = false ∧ s.js_scroll_click = false ∧ s.action_chains = false))
  ∧ (∀ i ∈ (robust_click s).2, i = 1 ∨ i = 2 ∨ i = 3)
  ∧ (∀ i ∈ ([1, 2, 3] : List ℕ),
      (i ∈ (robust_click s).2 ↔
        ∀ j ∈ ([1, 2, 3] : List ℕ), j < i → stageOk s j = false))
  ∧ (robust_click s).2 = ([1, 2, 3] : List ℕ).take (robust_click s).2.length := by
  obtain ⟨d, j, a⟩ := s
  cases d <;> cases j <;> cases a <;> decide

/-- Witness for C3 at the configuration where only stage 2 succeeds:
stages 1 and 2 are attempted (in order), stage 3 is not, and the result
is `True`. -/
theorem claim_C3_witness :
    (robust_click ⟨false, true, false⟩).1 = true
  ∧ (robust_click ⟨false, true, false⟩).2 = [1, 2] := by
  refine ⟨(claim_C3_robust_click ⟨false, true, false⟩).1.2 (Or.inr (Or.inl rfl)), ?_⟩
  decide

/-! ## C6: ordered locator chains -/

/-- C6: if some locator of an ordered chain resolves a visible element,
resolution succeeds with the first such locator: every earlier locator
fails, the chain stops right after the winning locator (it attempts
exactly `i + 1` locators), and later locators are never attempted. -/
theorem claim_C6_locator_priority (outs : List LocOutcome)
    (h : ∃ i, ∃ hi : i < outs.length, locSuccess (outs.get ⟨i, hi⟩) = true) :
    ∃ i, ∃ hi : i < outs.length,
      resolve_first outs = some i
      ∧ locSuccess (outs.get ⟨i, hi⟩) = true
      ∧ (∀ j, ∀ hj : j < outs.length, j < i → locSuccess (outs.get ⟨j, hj⟩) = false)
      ∧ tried_count outs = i + 1 := by
  induction outs with
  | nil =>
    obtain ⟨i, hi, -⟩ := h
    exact absurd hi (by simp)
  | cons o rest ih =>
    by_cases ho : locSuccess o = true
    · refine ⟨0, by simp, ?_, ho, ?_, ?_⟩
      · simp [resolve_first, ho]
      · intro j hj hj0; omega
      · simp [tried_count, ho]
    · have hrest : ∃ i, ∃ hi : i < rest.length, locSuccess (rest.get ⟨i, hi⟩) = true := by
        obtain ⟨i, hi, hs⟩ := h
        match i with
        | 0 => exact absurd hs ho
        | i + 1 => exact ⟨i, by simpa using hi, hs⟩
      obtain ⟨i, hi, h1, h2, h3, h4⟩ := ih hrest
      refine ⟨i + 1, by simpa using hi, ?_, h2, ?_, ?_⟩
      · simp [resolve_first, ho, h1]
      · intro j hj hji
        match j with
        | 0 => exact Bool.eq_false_iff.mpr ho
        | j + 1 => exact h3 j (by simpa using hj) (by omega)
      · simp [tried_count, ho, h4]
        omega

/-- Witness for C6: a chain where only the second locator resolves a
visible element succeeds via the second locator after attempting both. -/
theorem claim_C6_witness :
    ∃ i, ∃ hi : i < ([LocOutcome.found false, LocOutcome.found true] : List LocOutcome).length,
      resolve_first [LocOutcome.found false, LocOutcome.found true] = some i
      ∧ locSuccess (([LocOutcome.found false, LocOutcome.found true] : List LocOutcome).get ⟨i, hi⟩) = true
      ∧ (∀ j, ∀ hj : j < ([LocOutcome.found false, LocOutcome.found true] : List LocOutcome).length,
          j < i → locSuccess (([LocOutcome.found false, LocOutcome.found true] : List LocOutcome).get ⟨j, hj⟩) = false)
      ∧ tried_count [LocOutcome.found false, LocOutcome.found true] = i + 1 :=
  claim_C6_locator_priority [LocOutcome.found false, LocOutcome.found true]
    ⟨1, by decide, by decide⟩

/-! ## C4 and C7: the frame search -/

/-- Closed form of the linear context scan. -/
theorem scanCtxs_eq (pred : List ℕ → Bool) (l : List (List ℕ)) :
    scanCtxs pred l =
      (l.takeWhile (fun c => !pred c) ++ (l.find? pred).toList, l.find? pred) := by
  induction l with
  | nil => rfl
  | cons c rest ih =>
    by_cases hc : pred c = true
    · simp [scanCtxs, hc, List.takeWhile_cons, List.find?_cons, Option.toList]
    · have hc' : pred c = false := Bool.eq_false_iff.mpr hc
      simp [scanCtxs, hc', List.takeWhile_cons, List.find?_cons, ih]

/-- Scanning a concatenation: the second part is scanned only when the
first finds nothing. -/
theorem scanCtxs_append (pred : List ℕ → Bool) (l1 l2 : List (List ℕ)) :
    scanCtxs pred (l1 ++ l2) =
      if (scanCtxs pred l1).2.isSome then scanCtxs pred l1
      else ((scanCtxs pred l1).1 ++ (scanCtxs pred l2).1, (scanCtxs pred l2).2) := by
  induction l1 with
  | nil => simp [scanCtxs]
  | cons c rest ih =>
    by_cases hc : pred c = true
    · simp [scanCtxs, hc]
    · have hc' : pred c = false := Bool.eq_false_iff.mpr hc
      simp only [List.cons_append, scanCtxs, hc', Bool.false_eq_true, if_false,
        List.append_eq]
      rw [ih]
      by_cases h2 : (scanCtxs pred rest).2.isSome <;> simp [h2]

/-- The inner kid loop is the linear scan of the kid contexts. -/
theorem searchKids_eq_scan (p : Page) (i : ℕ) (f : Frame1)
    (hf : p.frames[i]? = some f) :
    ∀ (kids : List Frame2) (j : ℕ),
      (∀ d, kids[d]? = f.kids[j + d]?) →
      searchKids i kids j = scanCtxs (hasAt p) (kidCtxs i j kids) := by
  intro kids
  induction kids with
  | nil => intro j _; rfl
  | cons k rest ih =>
    intro j hk
    have hk0 : f.kids[j]? = some k := by
      have := hk 0
      simpa using this.symm
    have hhas : hasAt p [i, j] = k.has := by
      simp [hasAt, hf, hk0]
    by_cases hkh : k.has = true
    · simp [searchKids, kidCtxs, scanCtxs, hkh, hhas]
    · have hkh' : k.has = false := Bool.eq_false_iff.mpr hkh
      have ihr := ih (j + 1) (by
        intro d
        have := hk (d + 1)
        simpa [Nat.add_assoc, Nat.add_comm 1 d, Nat.add_left_comm] using this)
      simp [searchKids, kidCtxs, scanCtxs, hkh', hhas, ihr]

/-- The nested loops of `switch_to_frame_containing` over the top-level
frames are the linear scan of the depth-first context order. -/
theorem searchFrames_eq_scan (p : Page) :
    ∀ (frames : List Frame1) (i : ℕ),
      (∀ d, frames[d]? = p.frames[i + d]?) →
      searchFrames frames i = scanCtxs (hasAt p) (frameCtxs i frames) := by
  intro frames
  induction frames with
  | nil => intro i _; rfl
  | cons f rest ih =>
    intro i hfr
    have hf : p.frames[i]? = some f := by
      have := hfr 0
      simpa using this.symm
    have hhas : hasAt p [i] = f.has := by
      simp [hasAt, hf]
    by_cases hfh : f.has = true
    · simp [searchFrames, frameCtxs, scanCtxs, hfh, hhas]
    · have hfh' : f.has = false := Bool.eq_false_iff.mpr hfh
      have hkids := searchKids_eq_scan p i f hf f.kids 0 (by intro d; simp)
      have ihr := ih (i + 1) (by
        intro d
        have := hfr (d + 1)
        simpa [Nat.add_assoc, Nat.add_comm 1 d, Nat.add_left_comm] using this)
      simp only [searchFrames, frameCtxs, scanCtxs, hfh', Bool.false_eq_true, if_false,
        hhas, hkids, ihr, scanCtxs_append]
      cases hr : (scanCtxs (hasAt p) (kidCtxs i 0 f.kids)).2 <;>
        simp [hr, Option.isSome]

/-- `switch_to_frame_containing` as the linear scan of the depth-first
order. -/
theorem switch_eq_scan (p : Page) :
    switch_to_frame_containing p =
      ((scanCtxs (hasAt p) (dfsContextOrder p)).1,
        match (scanCtxs (hasAt p) (dfsContextOrder p)).2 with
        | some c => FrameResult.found c
        | none => FrameResult.notFoundRaised) := by
  have hmain := searchFrames_eq_scan p p.frames 0 (by intro d; simp)
  by_cases hp : p.has = true
  · simp [switch_to_frame_containing, dfsContextOrder, scanCtxs, hasAt, hp]
  · have hp' : p.has = false := Bool.eq_false_iff.mpr hp
    simp only [switch_to_frame_containing, dfsContextOrder, scanCtxs, hasAt, hp',
      Bool.false_eq_true, if_false, hmain]
    cases hr : (scanCtxs (hasAt p) (frameCtxs 0 p.frames)).2 <;> simp [hr]

/-- Timeout helper: if no poll within the budget sees a changed state, the
Nvidia pagination wait returns `False`. -/
theorem go_wait_timeout_of (before : PagState) (snap : ℕ → PagState)
    (h : ∀ m, 6 * m < 200 → state_changed before (snap (6 * (m + 1))) = false) :
    (go_to_next_results_page_wait before snap).2 = false := by
  refine Bool.eq_false_iff.mpr (fun hh => ?_)
  simp only [go_to_next_results_page_wait] at hh
  rw [runWait_true_iff] at hh
  obtain ⟨m, hm1, hm2⟩ := hh
  rw [Nat.zero_add] at hm1 hm2
  rw [h m hm1] at hm2
  exact absurd hm2 (by simp)

/-- Timeout helper: if no poll within the budget sees a thank-you tab, the
IAI redirect wait returns `False`. -/
theorem thank_you_wait_timeout_of (max_wait : ℕ) (tabs : ℕ → List String)
    (h : ∀ m, m < max_wait →
      (tabs m).any (fun u => strContains u "/thank-you/") = false) :
    (wait_for_thank_you_redirect max_wait tabs).2 = false := by
  refine Bool.eq_false_iff.mpr (fun hh => ?_)
  have h3 : (runWaitPoll max_wait 1 (by omega)
      (fun t => (tabs t).any (fun u => strContains u "/thank-you/")) 0).2 = true := hh
  rw [runWaitPoll_true_iff] at h3
  obtain ⟨m, hm1, hm2⟩ := h3
  rw [Nat.zero_add, Nat.one_mul] at hm1 hm2
  rw [h m hm1] at hm2
  exact absurd hm2 (by simp)

/-- The frame search returns normally with context `c` exactly when `c` is
the first context of the depth-first order containing the target. -/
theorem switch_snd_found_iff (p : Page) (c : List ℕ) :
    (switch_to_frame_containing p).2 = FrameResult.found c ↔
      (dfsContextOrder p).find? (hasAt p) = some c := by
  rw [switch_eq_scan]
  simp only [scanCtxs_eq]
  cases hf : (dfsContextOrder p).find? (hasAt p) <;> simp [hf]

/-- The frame search raises `NoSuchElementException` exactly when no
context up to depth 2 contains the target. -/
theorem switch_snd_notFound_iff (p : Page) :
    (switch_to_frame_containing p).2 = FrameResult.notFoundRaised ↔
      ∀ c ∈ dfsContextOrder p, hasAt p c = false := by
  rw [switch_eq_scan]
  simp only [scanCtxs_eq]
  cases hf : (dfsContextOrder p).find? (hasAt p) with
  | none =>
    rw [List.find?_eq_none] at hf
    simp only [hf]
    constructor
    · intro _ c hc
      exact Bool.eq_false_iff.mpr (hf c hc)
    · intro _; trivial
  | some c =>
    have hmem := List.mem_of_find?_eq_some hf
    have hc : hasAt p c = true := List.find?_some hf
    simp only [hf]
    constructor
    · intro h; exact absurd h (by simp)
    · intro hall
      exact absurd hc (by rw [hall c hmem]; simp)

/-- Every context of the kid scan has length 2. -/
theorem kidCtxs_mem_length (i : ℕ) :
    ∀ (kids : List Frame2) (j : ℕ), ∀ c ∈ kidCtxs i j kids, c.length ≤ 2 := by
  intro kids
  induction kids with
  | nil => intro j c hc; simp [kidCtxs] at hc
  | cons k rest ih =>
    intro j c hc
    rcases List.mem_cons.mp hc with hc | hc
    · simp [hc]
    · exact ih (j + 1) c hc

/-- Every context of the depth-first frame scan has length at most 2. -/
theorem frameCtxs_mem_length :
    ∀ (frames : List Frame1) (i : ℕ), ∀ c ∈ frameCtxs i frames, c.length ≤ 2 := by
  intro frames
  induction frames with
  | nil => intro i c hc; simp [frameCtxs] at hc
  | cons f rest ih =>
    intro i c hc
    rcases List.mem_cons.mp hc with hc | hc
    · simp [hc]
    · rcases List.mem_append.mp hc with hc | hc
      · exact kidCtxs_mem_length i f.kids 0 c hc
      · exact ih (i + 1) c hc

/-- Every context of the depth-first order has length at most 2. -/
theorem dfs_mem_length (p : Page) : ∀ c ∈ dfsContextOrder p, c.length ≤ 2 := by
  intro c hc
  rcases List.mem_cons.mp hc with hc | hc
  · simp [hc]
  · exact frameCtxs_mem_length p.frames 0 c hc

/-- Counterexample to C4 (the breadth-first part): on a page whose first
top-level frame contains a matching child frame and whose second
top-level frame also matches, the code finds the depth-2 context `[0, 0]`
without ever attempting the depth-1 context `[1]`, whereas the spec-side
breadth-first order would find `[1]` first. -/
theorem claim_C4_counterexample :
    (switch_to_frame_containing
        ⟨false, [⟨false, [⟨true, []⟩]⟩, ⟨true, []⟩]⟩).2 = FrameResult.found [0, 0]
  ∧ hasAt ⟨false, [⟨false, [⟨true, []⟩]⟩, ⟨true, []⟩]⟩ [1] = true
  ∧ [1] ∉ (switch_to_frame_containing
        ⟨false, [⟨false, [⟨true, []⟩]⟩, ⟨true, []⟩]⟩).1
  ∧ (bfsContextOrder ⟨false, [⟨false, [⟨true, []⟩]⟩, ⟨true, []⟩]⟩).find?
      (hasAt ⟨false, [⟨false, [⟨true, []⟩]⟩, ⟨true, []⟩]⟩) = some [1] := by
  decide

/-- C4 (amended): the frame search attempts the primary document context
first and then descends depth-first — each top-level frame followed by
its child frames before the next top-level frame — to a maximum depth
of 2 (never deeper, even when a depth-3 frame contains the target); each
attempt is made from a freshly restored default context; the attempted
contexts are exactly the depth-first order up to and including the first
context containing the target; it returns switched into the first such
context, and it restores the default context and raises a not-found
condition exactly when no context up to depth 2 contains the target. -/
theorem claim_C4_amended (p : Page) :
    (dfsContextOrder p).head? = some []
  ∧ (switch_to_frame_containing p).1
      = (dfsContextOrder p).takeWhile (fun c => !(hasAt p c))
        ++ ((dfsContextOrder p).find? (hasAt p)).toList
  ∧ (∀ c, (switch_to_frame_containing p).2 = FrameResult.found c ↔
        (dfsContextOrder p).find? (hasAt p) = some c)
  ∧ ((switch_to_frame_containing p).2 = FrameResult.notFoundRaised ↔
        ∀ c ∈ dfsContextOrder p, hasAt p c = false)
  ∧ (∀ c ∈ (switch_to_frame_containing p).1, c.length ≤ 2) := by
  refine ⟨rfl, ?_, fun c => switch_snd_found_iff p c, switch_snd_notFound_iff p, ?_⟩
  · rw [switch_eq_scan]
    simp only [scanCtxs_eq]
  · intro c hc
    rw [switch_eq_scan] at hc
    simp only [scanCtxs_eq] at hc
    rcases List.mem_append.mp hc with hc | hc
    · exact dfs_mem_length p c (List.Sublist.mem hc (List.takeWhile_sublist _))
    · cases hf : (dfsContextOrder p).find? (hasAt p) with
      | none => rw [hf] at hc; simp at hc
      | some d =>
        rw [hf] at hc
        simp only [Option.toList, List.mem_singleton] at hc
        subst hc
        exact dfs_mem_length p c (List.mem_of_find?_eq_some hf)

/-- Witness for the amended C4: a target present only two levels deep is
found there. -/
theorem claim_C4_witness :
    (switch_to_frame_containing ⟨false, [⟨false, [⟨false, []⟩, ⟨true, []⟩]⟩]⟩).2
      = FrameResult.found [0, 1] :=
  ((claim_C4_amended ⟨false, [⟨false, [⟨false, []⟩, ⟨true, []⟩]⟩]⟩).2.2.1 [0, 1]).mpr
    (by decide)

/-- Counterexample to C7: the frame search does not return its
TargetNotFound outcome as a value — on a page without the target it
restores the default context and raises `NoSuchElementException`
(line 109), modelled by the `FrameResult.notFoundRaised` outcome. -/
theorem claim_C7_counterexample :
    (switch_to_frame_containing ⟨false, [⟨false, []⟩]⟩).2
      = FrameResult.notFoundRaised := by
  decide

/-- C7 (amended): TargetNotFound and TimedOut in `safe_find`, resolution
failures and InteractionBlocked in `safe_click`/`robust_click`, and
TimedOut in both convergence waits are all returned as plain values
(`None`/`False`) to the immediate caller; the frame search
(`switch_to_frame_containing`) is the exception — it delivers
TargetNotFound by raising `NoSuchElementException`, exactly when no
context up to depth 2 contains the target. -/
theorem claim_C7_error_propagation (E : Type) (err : Unit) (s : ClickStages)
    (p : Page) (before : PagState) (snap : ℕ → PagState) (max_wait : ℕ)
    (tabs : ℕ → List String) :
    @safe_find E (Except.error err) = none
  ∧ @safe_click E (Except.error err) s = false
  ∧ (s.direct_click = false → s.js_scroll_click = false →
      s.action_chains = false → (robust_click s).1 = false)
  ∧ ((∀ m, 6 * m < 200 → state_changed before (snap (6 * (m + 1))) = false) →
      (go_to_next_results_page_wait before snap).2 = false)
  ∧ ((∀ m, m < max_wait →
        (tabs m).any (fun u => strContains u "/thank-you/") = false) →
      (wait_for_thank_you_redirect max_wait tabs).2 = false)
  ∧ ((switch_to_frame_containing p).2 = FrameResult.notFoundRaised ↔
      ∀ c ∈ dfsContextOrder p, hasAt p c = false) := by
  refine ⟨rfl, rfl, ?_, go_wait_timeout_of before snap,
    thank_you_wait_timeout_of max_wait tabs, switch_snd_notFound_iff p⟩
  intro h1 h2 h3
  obtain ⟨d, j, a⟩ := s
  simp only at h1 h2 h3
  subst h1; subst h2; subst h3
  decide

/-- Witness for the amended C7 at concrete inputs: every hypothesis is
discharged on an all-failing click configuration, constant snapshots, a
tab list never on the thank-you page, and a targetless page. -/
theorem claim_C7_witness :
    @safe_find Unit (Except.error ()) = none
  ∧ @safe_click Unit (Except.error ()) ⟨false, false, false⟩ = false
  ∧ (robust_click ⟨false, false, false⟩).1 = false
  ∧ (go_to_next_results_page_wait ⟨"1", "1-20 of 40", "x"⟩
      (fun _ => ⟨"1", "1-20 of 40", "x"⟩)).2 = false
  ∧ (wait_for_thank_you_redirect 45
      (fun _ => ["https://jobs.iai.co.il/jobs/?pr=41"])).2 = false
  ∧ (switch_to_frame_containing ⟨false, [⟨false, []⟩]⟩).2
      = FrameResult.notFoundRaised := by
  obtain ⟨h1, h2, h3, h4, h5, h6⟩ :=
    claim_C7_error_propagation Unit () ⟨false, false, false⟩
      ⟨false, [⟨false, []⟩]⟩ ⟨"1", "1-20 of 40", "x"⟩
      (fun _ => ⟨"1", "1-20 of 40", "x"⟩) 45
      (fun _ => ["https://jobs.iai.co.il/jobs/?pr=41"])
  refine ⟨h1, h2, h3 rfl rfl rfl, ?_, ?_, h6.mpr (by decide)⟩
  · refine h4 (by
      intro m hm
      show state_changed ⟨"1", "1-20 of 40", "x"⟩ ⟨"1", "1-20 of 40", "x"⟩ = false
      decide)
  · refine h5 (by
      intro m hm
      show (["https://jobs.iai.co.il/jobs/?pr=41"].any
        (fun u => strContains u "/thank-you/")) = false
      decide)

/-! ## C10: no CAPTCHA pause on the thank-you page -/

/-- C10: whenever the current tab's URL contains `"/thank-you/"`,
`_recaptcha_visible` returns `False` regardless of the captcha elements
present, so the submit flow's CAPTCHA pause is never taken on that page
(whatever the initial redirect wait reported). -/
theorem claim_C10_no_captcha_on_thank_you (p : IAIPage)
    (h : strContains p.cur_url "/thank-you/" = true) :
    recaptcha_visible p = false
  ∧ (∀ initialRedirect, submitCaptchaPause initialRedirect p = false) := by
  have hv : recaptcha_visible p = false := by
    simp [recaptcha_visible, h]
  refine ⟨hv, ?_⟩
  intro b
  cases b <;> simp [submitCaptchaPause, hv]

/-- Witness for C10: a thank-you page with captcha iframes and widget
boxes present still reports no captcha and never pauses. -/
theorem claim_C10_witness :
    recaptcha_visible ⟨"https://jobs.iai.co.il/thank-you/?j=1", 1, 1⟩ = false
  ∧ (∀ initialRedirect, submitCaptchaPause initialRedirect
      ⟨"https://jobs.iai.co.il/thank-you/?j=1", 1, 1⟩ = false) :=
  claim_C10_no_captcha_on_thank_you ⟨"https://jobs.iai.co.il/thank-you/?j=1", 1, 1⟩
    (by decide)

/-! ## C8: the visited-URL set of the IAI pagination loop -/

/-- What a successful navigation step guarantees: the navigated URL is the
computed successor of the current URL, it was not in the visited set when
consulted, and the new state adds (only) the post-load URL to the set. -/
theorem stepNav_some_spec (load : String → String) (mp sp : ℕ) (s : BotState)
    (u : String) (s1 : BotState) (h : stepNav load mp sp s = some (u, s1)) :
    compute_next_list_url s.current = some u
  ∧ u ∉ s.visited_urls
  ∧ s1.visited_urls = s.visited_urls.insert (load u)
  ∧ s1.current = load u := by
  unfold stepNav at h
  split at h
  · exact absurd h (by simp)
  · rename_i next hc
    split at h
    · exact absurd h (by simp)
    · split at h
      · exact absurd h (by simp)
      · rename_i hmp hv
        simp only [Option.some.injEq, Prod.mk.injEq] at h
        obtain ⟨h1, h2⟩ := h
        subst h1
        refine ⟨hc, hv, ?_, ?_⟩
        · rw [← h2]
        · rw [← h2]

/-- C8: along any run of the pagination loop, the visited set only grows;
a URL already in the visited set is never navigated to again; and when
the computed successor of the current URL is already in the set, the loop
stops at once, navigating nowhere. -/
theorem claim_C8_visited_set (load : String → String) (mp sp fuel : ℕ)
    (s : BotState) :
    s.visited_urls ⊆ (runPages load mp sp fuel s).2.visited_urls
  ∧ (∀ u ∈ s.visited_urls, u ∉ (runPages load mp sp fuel s).1)
  ∧ (∀ next, compute_next_list_url s.current = some next →
      next ∈ s.visited_urls → runPages load mp sp fuel s = ([], s)) := by
  induction fuel generalizing s with
  | zero =>
    refine ⟨by simp [runPages], by simp [runPages], fun next h1 h2 => rfl⟩
  | succ fuel ih =>
    cases hs : stepNav load mp sp s with
    | none =>
      refine ⟨?_, ?_, ?_⟩
      · simp [runPages, hs]
      · simp [runPages, hs]
      · intro next h1 h2; simp [runPages, hs]
    | some us1 =>
      obtain ⟨u, s1⟩ := us1
      obtain ⟨hc, hnv, hvis, hcur⟩ := stepNav_some_spec load mp sp s u s1 hs
      have hsub : s.visited_urls ⊆ s1.visited_urls := by
        rw [hvis]; exact List.subset_insert _ _
      obtain ⟨ih1, ih2, -⟩ := ih s1
      refine ⟨?_, ?_, ?_⟩
      · simp only [runPages, hs]
        exact fun x hx => ih1 (hsub hx)
      · intro v hv
        simp only [runPages, hs, List.mem_cons, not_or]
        refine ⟨fun he => hnv (he ▸ hv), ih2 v (hsub hv)⟩
      · intro next h1 h2
        rw [hc] at h1
        obtain rfl : next = u := by simpa using h1.symm
        exact absurd h2 hnv

/-- Witness for C8: from the first list page with the second page already
visited, the computed successor is that second page and the loop stops
without navigating anywhere. -/
theorem claim_C8_witness :
    (["https://jobs.iai.co.il/jobs/?pr=41&pg=2"] : List String)
      ⊆ (runPages (fun u => u) 0 1 5
          ⟨["https://jobs.iai.co.il/jobs/?pr=41&pg=2"],
            "https://jobs.iai.co.il/jobs/?pr=41"⟩).2.visited_urls
  ∧ "https://jobs.iai.co.il/jobs/?pr=41&pg=2"
      ∉ (runPages (fun u => u) 0 1 5
          ⟨["https://jobs.iai.co.il/jobs/?pr=41&pg=2"],
            "https://jobs.iai.co.il/jobs/?pr=41"⟩).1
  ∧ runPages (fun u => u) 0 1 5
        ⟨["https://jobs.iai.co.il/jobs/?pr=41&pg=2"],
          "https://jobs.iai.co.il/jobs/?pr=41"⟩
      = ([], ⟨["https://jobs.iai.co.il/jobs/?pr=41&pg=2"],
          "https://jobs.iai.co.il/jobs/?pr=41"⟩) := by
  obtain ⟨h1, h2, h3⟩ := claim_C8_visited_set (fun u => u) 0 1 5
    ⟨["https://jobs.iai.co.il/jobs/?pr=41&pg=2"],
      "https://jobs.iai.co.il/jobs/?pr=41"⟩
  exact ⟨h1, h2 _ (by simp), h3 "https://jobs.iai.co.il/jobs/?pr=41&pg=2"
    (by decide) (by simp)⟩

/-! ## C9 groundwork: splitting lemmas -/

theorem breakAt_eq_of_not (p : Char → Bool) (x : List Char)
    (hx : ∀ c ∈ x, p c = false) : breakAt p x = (x, none) := by
  induction x with
  | nil => rfl
  | cons c rest ih =>
    have hc := hx c (by simp)
    have hr := ih (fun d hd => hx d (by simp [hd]))
    simp [breakAt, hc, hr]

theorem breakAt_append_found (p : Char → Bool) (x : List Char) (ch : Char)
    (y : List Char) (hx : ∀ c ∈ x, p c = false) (hch : p ch = true) :
    breakAt p (x ++ ch :: y) = (x, some y) := by
  induction x with
  | nil => simp [breakAt, hch]
  | cons c rest ih =>
    have hc := hx c (by simp)
    have hr := ih (fun d hd => hx d (by simp [hd]))
    simp [breakAt, hc, hr]

theorem takeWhile_append_of (p : Char → Bool) (x : List Char) (ch : Char)
    (y : List Char) (hx : ∀ c ∈ x, p c = true) (hch : p ch = false) :
    (x ++ ch :: y).takeWhile p = x := by
  induction x with
  | nil => simp [List.takeWhile_cons, hch]
  | cons c rest ih =>
    have hc := hx c (by simp)
    have hr := ih (fun d hd => hx d (by simp [hd]))
    simp [List.takeWhile_cons, hc, hr]

theorem dropWhile_append_of (p : Char → Bool) (x : List Char) (ch : Char)
    (y : List Char) (hx : ∀ c ∈ x, p c = true) (hch : p ch = false) :
    (x ++ ch :: y).dropWhile p = ch :: y := by
  induction x with
  | nil => simp [List.dropWhile_cons, hch]
  | cons c rest ih =>
    have hc := hx c (by simp)
    have hr := ih (fun d hd => hx d (by simp [hd]))
    simp [List.dropWhile_cons, hc, hr]

theorem pySplitAux_of_no_sep (sep : Char) (l : List Char) (h : sep ∉ l) :
    pySplitAux sep l = (l, []) := by
  induction l with
  | nil => rfl
  | cons c rest ih =>
    have hc : ¬(c = sep) := fun he => h (by simp [he])
    have hr := ih (fun hm => h (by simp [hm]))
    simp [pySplitAux, hr, hc]

theorem pySplitAux_append (sep : Char) (x l : List Char) (hx : sep ∉ x) :
    pySplitAux sep (x ++ sep :: l) =
      (x, (pySplitAux sep l).1 :: (pySplitAux sep l).2) := by
  induction x with
  | nil => simp [pySplitAux]
  | cons c rest ih =>
    have hc : ¬(c = sep) := fun he => hx (by simp [he])
    have hr := ih (fun hm => hx (by simp [hm]))
    simp [pySplitAux, hr, hc]

theorem pySplit_joinAmp (parts : List (List Char))
    (h : ∀ p ∈ parts, '&' ∉ p) (hne : parts ≠ []) :
    pySplitChar '&' (joinAmp parts) = parts := by
  induction parts with
  | nil => exact absurd rfl hne
  | cons p rest ih =>
    cases rest with
    | nil =>
      show pySplitChar '&' p = [p]
      simp [pySplitChar, pySplitAux_of_no_sep '&' p (h p (by simp))]
    | cons q rest2 =>
      have hp : '&' ∉ p := h p (by simp)
      have ihr := ih (fun r hr => h r (List.mem_cons_of_mem _ hr)) (by simp)
      show pySplitChar '&' (p ++ '&' :: joinAmp (q :: rest2)) = p :: q :: rest2
      simp only [pySplitChar] at ihr ⊢
      rw [pySplitAux_append '&' p (joinAmp (q :: rest2)) hp]
      simpa using ihr

/-! ## C9 groundwork: character classes, UTF-8 bytes and quoting -/

theorem char_toNat_lt (c : Char) : c.toNat < 1114112 := by
  have := c.valid
  rcases this with h | h
  · show c.val.toNat < 1114112
    omega
  · show c.val.toNat < 1114112
    omega

theorem charToNat_ofNat (n : ℕ) (h : n < 55296) : (Char.ofNat n).toNat = n := by
  have hv : Nat.isValidChar n := Or.inl h
  rw [Char.ofNat, dif_pos hv]
  rfl

theorem charOfNat_toNat (c : Char) : Char.ofNat c.toNat = c := by
  have hv : Nat.isValidChar c.toNat := by
    have := c.valid
    simpa [UInt32.isValidChar, Char.toNat] using this
  rw [Char.ofNat, dif_pos hv]
  apply Char.ext
  show (Char.ofNatAux c.toNat hv).val = c.val
  rw [Char.ofNatAux]
  apply UInt32.eq_of_toBitVec_eq
  exact BitVec.eq_of_toNat_eq rfl

theorem utf8Bytes_ne_nil (n : ℕ) : utf8Bytes n ≠ [] := by
  unfold utf8Bytes
  split
  · simp
  · split
    · simp
    · split <;> simp

theorem utf8Bytes_ascii (n : ℕ) (h : n < 128) : utf8Bytes n = [n] := by
  simp [utf8Bytes, h]

theorem utf8Bytes_head_ge (n : ℕ) (h : 128 ≤ n) :
    ∃ b t, utf8Bytes n = b :: t ∧ 192 ≤ b ∧ t ≠ [] := by
  unfold utf8Bytes
  rw [if_neg (by omega)]
  by_cases h2 : n < 2048
  · rw [if_pos h2]
    exact ⟨_, _, rfl, by omega, by simp⟩
  · rw [if_neg h2]
    by_cases h3 : n < 65536
    · rw [if_pos h3]
      exact ⟨_, _, rfl, by omega, by simp⟩
    · rw [if_neg h3]
      exact ⟨_, _, rfl, by omega, by simp⟩

theorem utf8Bytes_lt (n : ℕ) (h : n < 1114112) : ∀ b ∈ utf8Bytes n, b < 256 := by
  intro b hb
  unfold utf8Bytes at hb
  by_cases h1 : n < 128
  · rw [if_pos h1] at hb
    simp at hb
    omega
  · rw [if_neg h1] at hb
    by_cases h2 : n < 2048
    · rw [if_pos h2] at hb
      rcases List.mem_cons.mp hb with hb | hb
      · omega
      · simp at hb
        omega
    · rw [if_neg h2] at hb
      by_cases h3 : n < 65536
      · rw [if_pos h3] at hb
        rcases List.mem_cons.mp hb with hb | hb
        · omega
        · rcases List.mem_cons.mp hb with hb | hb
          · omega
          · simp at hb
            omega
      · rw [if_neg h3] at hb
        rcases List.mem_cons.mp hb with hb | hb
        · omega
        · rcases List.mem_cons.mp hb with hb | hb
          · omega
          · rcases List.mem_cons.mp hb with hb | hb
            · omega
            · simp at hb
              omega

theorem hexDigitU_mem (x : ℕ) : hexDigitU x ∈ "0123456789ABCDEF".data := by
  by_cases h : x < 16
  · interval_cases x <;> decide
  · unfold hexDigitU
    rw [List.getD_eq_default]
    · decide
    · simpa using by omega

theorem hexVal_hexDigitU (x : ℕ) (h : x < 16) : hexVal (hexDigitU x) = some x := by
  interval_cases x <;> decide

theorem quoteChar_mem (c cc : Char) (h : cc ∈ quoteChar c) :
    alwaysSafeChar cc = true ∨ cc = '+' ∨ cc = '%' ∨ cc ∈ "0123456789ABCDEF".data := by
  unfold quoteChar at h
  by_cases h1 : alwaysSafeChar c = true
  · rw [if_pos h1] at h
    simp at h
    subst h
    exact Or.inl h1
  · rw [if_neg h1] at h
    by_cases h2 : c = ' '
    · rw [if_pos h2] at h
      simp at h
      subst h
      exact Or.inr (Or.inl rfl)
    · rw [if_neg h2] at h
      rcases List.mem_flatMap.mp h with ⟨b, -, hb⟩
      unfold percentHex at hb
      rcases List.mem_cons.mp hb with hb | hb
      · exact Or.inr (Or.inr (Or.inl hb))
      · rcases List.mem_cons.mp hb with hb | hb
        · exact Or.inr (Or.inr (Or.inr (hb ▸ hexDigitU_mem _)))
        · rcases List.mem_cons.mp hb with hb | hb
          · exact Or.inr (Or.inr (Or.inr (hb ▸ hexDigitU_mem _)))
          · simp at hb

/-! ## C9 groundwork: the quote/unquote round trip -/

theorem unquoteChars_cons_ne (c : Char) (rest : List Char) (h1 : c ≠ '%')
    (h2 : c ≠ '+') : unquoteChars (c :: rest) = c :: unquoteChars rest := by
  simp [unquoteChars, h1, h2]

theorem unquoteChars_plus (rest : List Char) :
    unquoteChars ('+' :: rest) = ' ' :: unquoteChars rest := by
  simp [unquoteChars]

theorem unquoteChars_percent (a b : Char) (rest : List Char) (x y : ℕ)
    (ha : hexVal a = some x) (hb : hexVal b = some y) :
    unquoteChars ('%' :: a :: b :: rest)
      = Char.ofNat (16 * x + y) :: unquoteChars rest := by
  simp [unquoteChars, ha, hb]

theorem alwaysSafeChar_ne_percent (c : Char) (h : alwaysSafeChar c = true) :
    c ≠ '%' := by
  intro he
  subst he
  exact absurd h (by decide)

theorem alwaysSafeChar_ne_plus (c : Char) (h : alwaysSafeChar c = true) :
    c ≠ '+' := by
  intro he
  subst he
  exact absurd h (by decide)

theorem unquoteChars_quoteChar (c : Char) (rest : List Char) :
    unquoteChars (quoteChar c ++ rest) = decodeChar c ++ unquoteChars rest := by
  unfold quoteChar decodeChar
  by_cases h1 : alwaysSafeChar c = true
  · rw [if_pos h1, if_pos h1]
    exact unquoteChars_cons_ne c rest (alwaysSafeChar_ne_percent c h1)
      (alwaysSafeChar_ne_plus c h1)
  · rw [if_neg h1, if_neg h1]
    by_cases h2 : c = ' '
    · rw [if_pos h2, if_pos h2]
      exact unquoteChars_plus rest
    · rw [if_neg h2, if_neg h2]
      have hlt : ∀ b ∈ utf8Bytes c.toNat, b < 256 :=
        utf8Bytes_lt c.toNat (char_toNat_lt c)
      revert hlt
      generalize utf8Bytes c.toNat = bs
      intro hlt
      induction bs with
      | nil => simp
      | cons b bt ih =>
        have hb : b < 256 := hlt b (by simp)
        have h16a : b / 16 < 16 := by omega
        have h16b : b % 16 < 16 := by omega
        have heq : 16 * (b / 16) + b % 16 = b := by omega
        simp only [List.flatMap_cons, List.map_cons, List.append_assoc,
          List.cons_append, List.nil_append]
        show unquoteChars ('%' :: hexDigitU (b / 16) :: hexDigitU (b % 16) ::
          (bt.flatMap percentHex ++ rest)) = _
        rw [unquoteChars_percent _ _ _ _ _ (hexVal_hexDigitU _ h16a)
          (hexVal_hexDigitU _ h16b), heq,
          ih (fun b2 hb2 => hlt b2 (by simp [hb2]))]

theorem unquote_quote_flatMap (l : List Char) :
    unquoteChars (l.flatMap quoteChar) = l.flatMap decodeChar := by
  induction l with
  | nil => rfl
  | cons c rest ih =>
    simp only [List.flatMap_cons]
    rw [unquoteChars_quoteChar, ih]

theorem decodeChar_ne_nil (c : Char) : decodeChar c ≠ [] := by
  unfold decodeChar
  split
  · simp
  · split
    · simp
    · simp [utf8Bytes_ne_nil]

theorem decodeChar_ascii (c : Char) (h : c.toNat < 128) : decodeChar c = [c] := by
  unfold decodeChar
  split
  · rfl
  · split
    · rename_i h2
      simp [h2]
    · rw [utf8Bytes_ascii c.toNat h]
      simp [charOfNat_toNat]

theorem decodeChar_singleton (c d : Char) (h : decodeChar c = [d]) : c = d := by
  unfold decodeChar at h
  by_cases h1 : alwaysSafeChar c = true
  · rw [if_pos h1] at h
    simpa using h
  · rw [if_neg h1] at h
    by_cases h2 : c = ' '
    · rw [if_pos h2] at h
      subst h2
      simpa using h
    · rw [if_neg h2] at h
      by_cases h3 : c.toNat < 128
      · rw [utf8Bytes_ascii c.toNat h3] at h
        simp only [List.map_cons, List.map_nil, List.cons.injEq] at h
        rw [← h.1, charOfNat_toNat]
      · obtain ⟨b, t, hbt, -, htne⟩ := utf8Bytes_head_ge c.toNat (by omega)
        rw [hbt] at h
        simp only [List.map_cons, List.cons.injEq] at h
        exact absurd (List.map_eq_nil_iff.mp h.2) htne

theorem decodeChar_multi_head (c d : Char) (t : List Char)
    (h : decodeChar c = d :: t) (ht : t ≠ []) : 192 ≤ d.toNat := by
  unfold decodeChar at h
  by_cases h1 : alwaysSafeChar c = true
  · rw [if_pos h1] at h
    simp only [List.cons.injEq] at h
    exact absurd h.2.symm ht
  · rw [if_neg h1] at h
    by_cases h2 : c = ' '
    · rw [if_pos h2] at h
      simp only [List.cons.injEq] at h
      exact absurd h.2.symm ht
    · rw [if_neg h2] at h
      by_cases h3 : c.toNat < 128
      · rw [utf8Bytes_ascii c.toNat h3] at h
        simp only [List.map_cons, List.map_nil, List.cons.injEq] at h
        exact absurd h.2.symm ht
      · obtain ⟨b, t2, hbt, hge, -⟩ := utf8Bytes_head_ge c.toNat (by omega)
        have hblt : b < 256 := by
          have := utf8Bytes_lt c.toNat (char_toNat_lt c)
          exact this b (by rw [hbt]; simp)
        rw [hbt] at h
        simp only [List.map_cons, List.cons.injEq] at h
        rw [← h.1, charToNat_ofNat b (by omega)]
        exact hge

theorem flatMap_decode_ascii (target : List Char)
    (htarget : ∀ d ∈ target, d.toNat < 128) :
    ∀ l : List Char, l.flatMap decodeChar = target → l = target := by
  induction target with
  | nil =>
    intro l h
    cases l with
    | nil => rfl
    | cons c rest =>
      simp only [List.flatMap_cons] at h
      exact absurd (List.append_eq_nil.mp h).1 (decodeChar_ne_nil c)
  | cons d dt ih =>
    intro l h
    cases l with
    | nil => simp at h
    | cons c rest =>
      simp only [List.flatMap_cons] at h
      cases hd : decodeChar c with
      | nil => exact absurd hd (decodeChar_ne_nil c)
      | cons e et =>
        rw [hd] at h
        simp only [List.cons_append, List.cons.injEq] at h
        obtain ⟨he, hrest⟩ := h
        cases et with
        | nil =>
          have hc : c = e := decodeChar_singleton c e hd
          subst he
          simp only [List.nil_append] at hrest
          rw [hc, ih (fun x hx => htarget x (by simp [hx])) rest hrest]
        | cons e2 et2 =>
          have hge := decodeChar_multi_head c e (e2 :: et2) hd (by simp)
          have hlt := htarget d (by simp)
          rw [he] at hge
          omega

theorem flatMap_decode_of_ascii :
    ∀ l : List Char, (∀ c ∈ l, c.toNat < 128) → l.flatMap decodeChar = l := by
  intro l
  induction l with
  | nil => intro _; rfl
  | cons c rest ih =>
    intro h
    simp only [List.flatMap_cons]
    rw [decodeChar_ascii c (h c (by simp)), ih (fun x hx => h x (by simp [hx]))]
    rfl

theorem uqqp_ascii (s : String) (h : ∀ c ∈ s.data, c.toNat < 128) :
    unquote_plus (quote_plus s) = s := by
  have hdata : (unquote_plus (quote_plus s)).data = s.data := by
    show unquoteChars (s.data.flatMap quoteChar) = s.data
    rw [unquote_quote_flatMap]
    exact flatMap_decode_of_ascii s.data h
  exact congrArg String.mk hdata

theorem uqqp_eq_ascii_iff (k t : String) (ht : ∀ c ∈ t.data, c.toNat < 128) :
    unquote_plus (quote_plus k) = t ↔ k = t := by
  constructor
  · intro h
    have hdata : k.data.flatMap decodeChar = t.data := by
      rw [← unquote_quote_flatMap]
      show (unquote_plus (quote_plus k)).data = t.data
      rw [h]
    exact congrArg String.mk (flatMap_decode_ascii t.data ht k.data hdata)
  · intro h
    subst h
    exact uqqp_ascii k ht

/-! ## C9 groundwork: `parse_qs` grouping and dict lemmas -/

theorem unquoteChars_percent_bad (a b : Char) (rest : List Char)
    (h : hexVal a = none ∨ hexVal b = none) :
    unquoteChars ('%' :: a :: b :: rest) = '%' :: unquoteChars (a :: b :: rest) := by
  rcases h with h | h
  · cases hb : hexVal b <;> simp [unquoteChars, h, hb]
  · cases ha : hexVal a <;> simp [unquoteChars, ha, h]

theorem unquoteChars_cons_ne_nil (c : Char) (rest : List Char) :
    unquoteChars (c :: rest) ≠ [] := by
  by_cases hc : c = '%'
  · subst hc
    cases rest with
    | nil => decide
    | cons a rest2 =>
      cases rest2 with
      | nil => simp [unquoteChars]
      | cons b rest3 =>
        cases ha : hexVal a with
        | none => rw [unquoteChars_percent_bad a b rest3 (Or.inl ha)]; simp
        | some x =>
          cases hb : hexVal b with
          | none => rw [unquoteChars_percent_bad a b rest3 (Or.inr hb)]; simp
          | some y => rw [unquoteChars_percent a b rest3 x y ha hb]; simp
  · by_cases hp : c = '+'
    · subst hp
      rw [unquoteChars_plus]
      simp
    · rw [unquoteChars_cons_ne c rest hc hp]
      simp

theorem quoteChar_ne_nil (c : Char) : quoteChar c ≠ [] := by
  unfold quoteChar
  split
  · simp
  · split
    · simp
    · cases hu : utf8Bytes c.toNat with
      | nil => exact absurd hu (utf8Bytes_ne_nil c.toNat)
      | cons b t => simp [percentHex]

theorem quote_plus_data_ne_nil (v : String) (h : v ≠ "") :
    (quote_plus v).data ≠ [] := by
  show v.data.flatMap quoteChar ≠ []
  cases hv : v.data with
  | nil => exact absurd (congrArg String.mk hv) h
  | cons c rest =>
    simp only [List.flatMap_cons]
    intro hcontra
    exact absurd (List.append_eq_nil.mp hcontra).1 (quoteChar_ne_nil c)

theorem parsePair_encoded (k v : String) (hv : v ≠ "") :
    parsePair ((quote_plus k).data ++ '=' :: (quote_plus v).data)
      = some (unquote_plus (quote_plus k), unquote_plus (quote_plus v)) := by
  have hkeq : ∀ c ∈ (quote_plus k).data, (c = '=' : Bool) = false := by
    intro c hc
    obtain ⟨a, -, hmem⟩ := List.mem_flatMap.mp hc
    rcases quoteChar_mem a c hmem with h | h | h | h
    · simp
      intro he
      subst he
      exact absurd h (by decide)
    · simp [h]
    · simp [h]
    · simp
      intro he
      subst he
      exact absurd h (by decide)
  unfold parsePair
  rw [if_neg, breakAt_append_found _ _ '=' _ hkeq (by simp)]
  · show (if (quote_plus v).data = [] then none else _) = _
    rw [if_neg (quote_plus_data_ne_nil v hv)]
  · intro hcontra
    have := congrArg List.length hcontra
    simp at this

theorem quote_plus_not_mem (d : Char) (hd : alwaysSafeChar d = false)
    (hplus : d ≠ '+') (hpct : d ≠ '%') (hhex : d ∉ "0123456789ABCDEF".data)
    (s : String) : d ∉ (quote_plus s).data := by
  intro hc
  obtain ⟨a, -, hmem⟩ := List.mem_flatMap.mp hc
  rcases quoteChar_mem a d hmem with h | h | h | h
  · rw [h] at hd; exact absurd hd (by simp)
  · exact hplus h
  · exact hpct h
  · exact hhex h

theorem encoded_pair_no_amp (k v : String) :
    '&' ∉ (quote_plus k).data ++ '=' :: (quote_plus v).data := by
  intro hc
  rcases List.mem_append.mp hc with hc | hc
  · exact quote_plus_not_mem '&' (by decide) (by decide) (by decide) (by decide) k hc
  · rcases List.mem_cons.mp hc with hc | hc
    · exact absurd hc (by decide)
    · exact quote_plus_not_mem '&' (by decide) (by decide) (by decide) (by decide) v hc

theorem joinAmp_mem (parts : List (List Char)) (c : Char)
    (h : c ∈ joinAmp parts) : (∃ p ∈ parts, c ∈ p) ∨ c = '&' := by
  induction parts with
  | nil => simp [joinAmp] at h
  | cons p rest ih =>
    cases rest with
    | nil =>
      simp only [joinAmp] at h
      exact Or.inl ⟨p, by simp, h⟩
    | cons q rest2 =>
      simp only [joinAmp] at h
      rcases List.mem_append.mp h with h | h
      · exact Or.inl ⟨p, by simp, h⟩
      · rcases List.mem_cons.mp h with h | h
        · exact Or.inr h
        · rcases ih h with ⟨p2, hp2, hc2⟩ | h2
          · exact Or.inl ⟨p2, by simp [hp2], hc2⟩
          · exact Or.inr h2

theorem pyUrlencode_char_class (items : List (String × String)) (c : Char)
    (h : c ∈ (pyUrlencode items).data) :
    c ≠ '#' ∧ c ≠ '\t' ∧ c ≠ '\r' ∧ c ≠ '\n' := by
  have hclass : alwaysSafeChar c = true ∨ c = '+' ∨ c = '%' ∨
      c ∈ "0123456789ABCDEF".data ∨ c = '=' ∨ c = '&' := by
    rcases joinAmp_mem _ c h with ⟨p, hp, hc⟩ | h2
    · obtain ⟨kv, -, hkv⟩ := List.mem_map.mp hp
      subst hkv
      rcases List.mem_append.mp hc with hc | hc
      · obtain ⟨a, -, hmem⟩ := List.mem_flatMap.mp hc
        rcases quoteChar_mem a c hmem with h3 | h3 | h3 | h3
        · exact Or.inl h3
        · exact Or.inr (Or.inl h3)
        · exact Or.inr (Or.inr (Or.inl h3))
        · exact Or.inr (Or.inr (Or.inr (Or.inl h3)))
      · rcases List.mem_cons.mp hc with hc | hc
        · exact Or.inr (Or.inr (Or.inr (Or.inr (Or.inl hc))))
        · obtain ⟨a, -, hmem⟩ := List.mem_flatMap.mp hc
          rcases quoteChar_mem a c hmem with h3 | h3 | h3 | h3
          · exact Or.inl h3
          · exact Or.inr (Or.inl h3)
          · exact Or.inr (Or.inr (Or.inl h3))
          · exact Or.inr (Or.inr (Or.inr (Or.inl h3)))
    · exact Or.inr (Or.inr (Or.inr (Or.inr (Or.inr h2))))
  refine ⟨?_, ?_, ?_, ?_⟩ <;>
    (intro he; subst he;
     rcases hclass with h3 | h3 | h3 | h3 | h3 | h3 <;> exact absurd h3 (by decide))

theorem filterMap_parsePair_encoded :
    ∀ items : List (String × String), (∀ kv ∈ items, kv.2 ≠ "") →
    List.filterMap
        (fun kv => parsePair ((quote_plus kv.1).data ++ '=' :: (quote_plus kv.2).data))
        items
      = items.map (fun kv =>
          (unquote_plus (quote_plus kv.1), unquote_plus (quote_plus kv.2))) := by
  intro items
  induction items with
  | nil => intro _; rfl
  | cons kv rest ih =>
    intro hv
    simp only [List.map_cons, List.filterMap_cons]
    rw [parsePair_encoded kv.1 kv.2 (hv kv (by simp)),
      ih (fun e he => hv e (by simp [he]))]

theorem parse_qsl_encoded (items : List (String × String))
    (hv : ∀ kv ∈ items, kv.2 ≠ "") (hne : items ≠ []) :
    parse_qsl (pyUrlencode items)
      = items.map (fun kv =>
          (unquote_plus (quote_plus kv.1), unquote_plus (quote_plus kv.2))) := by
  show ((pySplitChar '&' (pyUrlencode items).data).filterMap parsePair) = _
  have hsplit : pySplitChar '&' (pyUrlencode items).data
      = items.map (fun kv => (quote_plus kv.1).data ++ '=' :: (quote_plus kv.2).data) := by
    show pySplitChar '&' (joinAmp _) = _
    refine pySplit_joinAmp _ ?_ (by simpa using hne)
    intro p hp
    obtain ⟨kv, -, hkv⟩ := List.mem_map.mp hp
    subst hkv
    exact encoded_pair_no_amp kv.1 kv.2
  rw [hsplit, List.filterMap_map]
  exact filterMap_parsePair_encoded items hv

theorem qsFirstVal_insert_ne (acc : List (String × List String))
    (k1 v1 k : String) (hk : k ≠ k1) :
    qsFirstVal (qsInsert acc k1 v1) k = qsFirstVal acc k := by
  induction acc with
  | nil =>
    have : ¬(k1 = k) := fun h => hk h.symm
    simp [qsInsert, qsFirstVal, qsFind, this]
  | cons e rest ih =>
    obtain ⟨ke, vse⟩ := e
    by_cases hke : ke = k1
    · subst hke
      have : ¬(ke = k) := fun h => hk h.symm
      simp [qsInsert, qsFirstVal, qsFind, this]
    · by_cases hkek : ke = k
      · have hk2 : ¬(k = k1) := fun h => hk h
        simp [qsInsert, qsFirstVal, qsFind, hke, hkek, hk2]
      · simp only [qsInsert, if_neg hke]
        simp only [qsFirstVal, qsFind, if_neg hkek]
        exact ih

theorem qsFirstVal_insert_self (acc : List (String × List String))
    (k1 v1 : String) (hacc : ∀ e ∈ acc, e.2 ≠ []) :
    qsFirstVal (qsInsert acc k1 v1) k1 = (qsFirstVal acc k1).or (some v1) := by
  induction acc with
  | nil => simp [qsInsert, qsFirstVal, qsFind]
  | cons e rest ih =>
    obtain ⟨ke, vse⟩ := e
    by_cases hke : ke = k1
    · subst hke
      obtain ⟨v0, vt, rfl⟩ : ∃ v0 vt, vse = v0 :: vt := by
        cases vse with
        | nil => exact absurd rfl (hacc (ke, []) (by simp))
        | cons v0 vt => exact ⟨v0, vt, rfl⟩
      simp [qsInsert, qsFirstVal, qsFind]
    · simp only [qsInsert, if_neg hke]
      simp only [qsFirstVal, qsFind, if_neg hke]
      exact ih (fun e he => hacc e (by simp [he]))

theorem qsFind_insert_none_iff (acc : List (String × List String))
    (k1 v1 k : String) :
    qsFind (qsInsert acc k1 v1) k = none ↔ qsFind acc k = none ∧ ¬(k1 = k) := by
  induction acc with
  | nil =>
    by_cases hk : k1 = k <;> simp [qsInsert, qsFind, hk]
  | cons e rest ih =>
    obtain ⟨ke, vse⟩ := e
    by_cases hke : ke = k1
    · subst hke
      by_cases hkk : ke = k <;> simp [qsInsert, qsFind, hkk]
    · by_cases hkk : ke = k
      · have hk2 : ¬(k = k1) := fun h => hke (hkk.trans h)
        simp [qsInsert, hke, qsFind, hkk, hk2]
      · simp only [qsInsert, if_neg hke, qsFind, if_neg hkk]
        exact ih

theorem qsInsert_values (acc : List (String × List String)) (k1 v1 : String)
    (hacc : ∀ e ∈ acc, ∀ v ∈ e.2, v ≠ "") (hv1 : v1 ≠ "") :
    ∀ e ∈ qsInsert acc k1 v1, ∀ v ∈ e.2, v ≠ "" := by
  induction acc with
  | nil =>
    intro e he
    simp only [qsInsert, List.mem_singleton] at he
    subst he
    simpa using hv1
  | cons e0 rest ih =>
    obtain ⟨ke, vse⟩ := e0
    intro e he
    by_cases hke : ke = k1
    · subst hke
      rw [qsInsert, if_pos rfl] at he
      rcases List.mem_cons.mp he with he | he
      · subst he
        intro v hv
        rcases List.mem_append.mp hv with hv | hv
        · exact hacc (ke, vse) (by simp) v hv
        · rcases List.mem_singleton.mp hv with rfl
          exact hv1
      · exact hacc e (by simp [he])
    · rw [qsInsert, if_neg hke] at he
      rcases List.mem_cons.mp he with he | he
      · subst he
        exact hacc (ke, vse) (by simp)
      · exact ih (fun e2 he2 => hacc e2 (by simp [he2])) e he

theorem qsInsert_ne_nil_vals (acc : List (String × List String)) (k1 v1 : String)
    (hacc : ∀ e ∈ acc, e.2 ≠ []) :
    ∀ e ∈ qsInsert acc k1 v1, e.2 ≠ [] := by
  induction acc with
  | nil =>
    intro e he
    simp only [qsInsert, List.mem_singleton] at he
    subst he
    simp
  | cons e0 rest ih =>
    obtain ⟨ke, vse⟩ := e0
    intro e he
    by_cases hke : ke = k1
    · subst hke
      rw [qsInsert, if_pos rfl] at he
      rcases List.mem_cons.mp he with he | he
      · subst he
        simp
      · exact hacc e (by simp [he])
    · rw [qsInsert, if_neg hke] at he
      rcases List.mem_cons.mp he with he | he
      · subst he
        exact hacc (ke, vse) (by simp)
      · exact ih (fun e2 he2 => hacc e2 (by simp [he2])) e he

theorem foldl_insert_firstVal :
    ∀ (pairs : List (String × String)) (acc : List (String × List String)),
    (∀ e ∈ acc, e.2 ≠ []) →
    ∀ k, qsFirstVal (pairs.foldl (fun a kv => qsInsert a kv.1 kv.2) acc) k
      = (qsFirstVal acc k).or (pairsFirst pairs k) := by
  intro pairs
  induction pairs with
  | nil =>
    intro acc hacc k
    simp [pairsFirst]
  | cons kv rest ih =>
    intro acc hacc k
    simp only [List.foldl_cons]
    rw [ih (qsInsert acc kv.1 kv.2) (qsInsert_ne_nil_vals acc kv.1 kv.2 hacc) k]
    by_cases hk : k = kv.1
    · rw [hk, qsFirstVal_insert_self acc kv.1 kv.2 hacc]
      have hfind : pairsFirst (kv :: rest) kv.1 = some kv.2 := by
        simp [pairsFirst, List.find?_cons]
      rw [hfind]
      cases qsFirstVal acc kv.1 <;> simp [Option.or]
    · rw [qsFirstVal_insert_ne acc kv.1 kv.2 k hk]
      have hfind : pairsFirst (kv :: rest) k = pairsFirst rest k := by
        have : (kv.1 == k) = false := by
          simp only [beq_eq_false_iff_ne, ne_eq]
          exact fun h => hk h.symm
        simp [pairsFirst, List.find?_cons, this]
      rw [hfind]

theorem parse_qs_firstVal (q : String) (k : String) :
    qsFirstVal (parse_qs q) k = pairsFirst (parse_qsl q) k := by
  show qsFirstVal ((parse_qsl q).foldl (fun a kv => qsInsert a kv.1 kv.2) []) k = _
  rw [foldl_insert_firstVal (parse_qsl q) [] (by simp) k]
  simp [qsFirstVal, qsFind, Option.or]

theorem foldl_insert_find_none :
    ∀ (pairs : List (String × String)) (acc : List (String × List String)) (k : String),
    (qsFind (pairs.foldl (fun a kv => qsInsert a kv.1 kv.2) acc) k = none ↔
      qsFind acc k = none ∧ ∀ kv ∈ pairs, kv.1 ≠ k) := by
  intro pairs
  induction pairs with
  | nil =>
    intro acc k
    simp
  | cons kv rest ih =>
    intro acc k
    simp only [List.foldl_cons]
    rw [ih (qsInsert acc kv.1 kv.2) k]
    rw [qsFind_insert_none_iff acc kv.1 kv.2 k]
    constructor
    · rintro ⟨⟨h1, h2⟩, h3⟩
      exact ⟨h1, by
        intro e he
        rcases List.mem_cons.mp he with he | he
        · subst he; exact h2
        · exact h3 e he⟩
    · rintro ⟨h1, h2⟩
      exact ⟨⟨h1, h2 kv (by simp)⟩, fun e he => h2 e (by simp [he])⟩

theorem parse_qs_find_none (q : String) (k : String) :
    qsFind (parse_qs q) k = none ↔ ∀ kv ∈ parse_qsl q, kv.1 ≠ k := by
  show qsFind ((parse_qsl q).foldl (fun a kv => qsInsert a kv.1 kv.2) []) k = none ↔ _
  rw [foldl_insert_find_none (parse_qsl q) [] k]
  simp [qsFind]

theorem foldl_insert_values :
    ∀ (pairs : List (String × String)) (acc : List (String × List String)),
    (∀ e ∈ acc, e.2 ≠ []) → (∀ e ∈ acc, ∀ v ∈ e.2, v ≠ "") →
    (∀ kv ∈ pairs, kv.2 ≠ "") →
    (∀ e ∈ pairs.foldl (fun a kv => qsInsert a kv.1 kv.2) acc,
      e.2 ≠ [] ∧ ∀ v ∈ e.2, v ≠ "") := by
  intro pairs
  induction pairs with
  | nil =>
    intro acc h1 h2 _ e he
    exact ⟨h1 e he, h2 e he⟩
  | cons kv rest ih =>
    intro acc h1 h2 h3 e he
    simp only [List.foldl_cons] at he
    exact ih (qsInsert acc kv.1 kv.2)
      (qsInsert_ne_nil_vals acc kv.1 kv.2 h1)
      (qsInsert_values acc kv.1 kv.2 h2 (h3 kv (by simp)))
      (fun e2 he2 => h3 e2 (by simp [he2])) e he

theorem parse_qsl_values_ne (q : String) : ∀ kv ∈ parse_qsl q, kv.2 ≠ "" := by
  intro kv hkv
  obtain ⟨chunk, -, hchunk⟩ := List.mem_filterMap.mp hkv
  unfold parsePair at hchunk
  split at hchunk
  · exact absurd hchunk (by simp)
  · split at hchunk
    · exact absurd hchunk (by simp)
    · rename_i name value heq
      split at hchunk
      · exact absurd hchunk (by simp)
      · rename_i hvne
        simp only [Option.some.injEq] at hchunk
        rw [← hchunk]
        show unquote_plus ⟨value⟩ ≠ ""
        cases value with
        | nil => exact absurd rfl hvne
        | cons c rest =>
          intro hcontra
          exact absurd (congrArg String.data hcontra)
            (by simpa [unquote_plus] using unquoteChars_cons_ne_nil c rest)

theorem parse_qs_ok (q : String) :
    ∀ e ∈ parse_qs q, e.2 ≠ [] ∧ ∀ v ∈ e.2, v ≠ "" := by
  exact foldl_insert_values (parse_qsl q) [] (by simp) (by simp)
    (parse_qsl_values_ne q)

theorem qsFirstVal_none_iff_find_none (qs : List (String × List String))
    (hok : ∀ e ∈ qs, e.2 ≠ []) (k : String) :
    qsFirstVal qs k = none ↔ qsFind qs k = none := by
  unfold qsFirstVal
  cases hf : qsFind qs k with
  | none => simp
  | some vs =>
    have hvs : vs ≠ [] := by
      have hmem : (k, vs) ∈ qs := by
        clear hok
        induction qs with
        | nil => simp [qsFind] at hf
        | cons e rest ih =>
          obtain ⟨ke, vse⟩ := e
          rw [qsFind] at hf
          by_cases hke : ke = k
          · rw [if_pos hke] at hf
            subst hke
            simp only [Option.some.injEq] at hf
            subst hf
            simp
          · rw [if_neg hke] at hf
            exact List.mem_cons_of_mem _ (ih hf)
      exact hok (k, vs) hmem
    cases vs with
    | nil => exact absurd rfl hvs
    | cons v vt => simp

theorem qsSet_firstVal_self (qs : List (String × List String)) (k : String)
    (vs : List String) : qsFirstVal (qsSet qs k vs) k = vs.head? := by
  induction qs with
  | nil => simp [qsSet, qsFirstVal, qsFind]
  | cons e rest ih =>
    obtain ⟨ke, vse⟩ := e
    by_cases hke : ke = k
    · simp [qsSet, qsFirstVal, qsFind, hke]
    · simp only [qsSet, if_neg hke, qsFirstVal, qsFind, if_neg hke]
      exact ih

theorem qsSet_firstVal_ne (qs : List (String × List String)) (k k2 : String)
    (vs : List String) (hk : k2 ≠ k) :
    qsFirstVal (qsSet qs k vs) k2 = qsFirstVal qs k2 := by
  induction qs with
  | nil =>
    have : ¬(k = k2) := fun h => hk h.symm
    simp [qsSet, qsFirstVal, qsFind, this]
  | cons e rest ih =>
    obtain ⟨ke, vse⟩ := e
    by_cases hke : ke = k
    · subst hke
      have : ¬(ke = k2) := fun h => hk h.symm
      simp [qsSet, qsFirstVal, qsFind, this]
    · by_cases hke2 : ke = k2
      · have hne : ¬(k2 = k) := hk
        simp [qsSet, hke, qsFirstVal, qsFind, hke2, hne]
      · simp only [qsSet, if_neg hke, qsFirstVal, qsFind, if_neg hke2]
        exact ih

theorem qsSet_find_ne_none (qs : List (String × List String)) (k k2 : String)
    (vs : List String) (hk : k2 ≠ k) :
    (qsFind (qsSet qs k vs) k2 = none ↔ qsFind qs k2 = none) := by
  induction qs with
  | nil =>
    have : ¬(k = k2) := fun h => hk h.symm
    simp [qsSet, qsFind, this]
  | cons e rest ih =>
    obtain ⟨ke, vse⟩ := e
    by_cases hke : ke = k
    · subst hke
      have : ¬(ke = k2) := fun h => hk h.symm
      simp [qsSet, qsFind, this]
    · by_cases hke2 : ke = k2
      · have hne : ¬(k2 = k) := hk
        simp [qsSet, hke, qsFind, hke2, hne]
      · simp only [qsSet, if_neg hke, qsFind, if_neg hke2]
        exact ih

theorem qsSet_ok (qs : List (String × List String)) (k : String)
    (vs : List String) (hok : ∀ e ∈ qs, e.2 ≠ [] ∧ ∀ v ∈ e.2, v ≠ "")
    (hvs : vs ≠ [] ∧ ∀ v ∈ vs, v ≠ "") :
    ∀ e ∈ qsSet qs k vs, e.2 ≠ [] ∧ ∀ v ∈ e.2, v ≠ "" := by
  induction qs with
  | nil =>
    intro e he
    simp only [qsSet, List.mem_singleton] at he
    subst he
    exact hvs
  | cons e0 rest ih =>
    obtain ⟨ke, vse⟩ := e0
    intro e he
    by_cases hke : ke = k
    · rw [qsSet, if_pos hke] at he
      rcases List.mem_cons.mp he with he | he
      · subst he
        exact hvs
      · exact hok e (by simp [he])
    · rw [qsSet, if_neg hke] at he
      rcases List.mem_cons.mp he with he | he
      · subst he
        exact hok (ke, vse) (by simp)
      · exact ih (fun e2 he2 => hok e2 (by simp [he2])) e he

theorem firstVals_pairsFirst (qs : List (String × List String)) (k : String)
    (hok : ∀ e ∈ qs, e.2 ≠ []) :
    pairsFirst (firstVals qs) k = qsFirstVal qs k := by
  induction qs with
  | nil => simp [firstVals, pairsFirst, qsFirstVal, qsFind]
  | cons e rest ih =>
    obtain ⟨ke, vse⟩ := e
    obtain ⟨v0, vt, rfl⟩ : ∃ v0 vt, vse = v0 :: vt := by
      cases vse with
      | nil => exact absurd rfl (hok (ke, []) (by simp))
      | cons v0 vt => exact ⟨v0, vt, rfl⟩
    simp only [firstVals, List.filterMap_cons, List.head?, Option.map_some]
    by_cases hke : ke = k
    · subst hke
      simp [pairsFirst, List.find?_cons, qsFirstVal, qsFind]
    · have hbeq : (ke == k) = false := by
        simpa using hke
      show pairsFirst ((ke, v0) :: firstVals rest) k = _
      have h1 : pairsFirst ((ke, v0) :: firstVals rest) k
          = pairsFirst (firstVals rest) k := by
        simp [pairsFirst, List.find?_cons, hbeq]
      rw [h1, ih (fun e2 he2 => hok e2 (by simp [he2]))]
      simp [qsFirstVal, qsFind, hke]

theorem pairsFirst_map_uqqp (items : List (String × String)) (k : String)
    (hk : ∀ c ∈ k.data, c.toNat < 128) :
    pairsFirst (items.map (fun kv =>
        (unquote_plus (quote_plus kv.1), unquote_plus (quote_plus kv.2)))) k
      = (pairsFirst items k).map (fun v => unquote_plus (quote_plus v)) := by
  induction items with
  | nil => simp [pairsFirst]
  | cons kv rest ih =>
    by_cases hkv : kv.1 = k
    · have : unquote_plus (quote_plus kv.1) = k := by
        rw [hkv]
        exact uqqp_ascii k hk
      simp only [List.map_cons]
      rw [pairsFirst, List.find?_cons, pairsFirst, List.find?_cons]
      have hb1 : ((unquote_plus (quote_plus kv.1), unquote_plus (quote_plus kv.2)).1 == k)
          = true := by simpa using this
      have hb2 : (kv.1 == k) = true := by simpa using hkv
      rw [hb1, hb2]
      simp
    · have : unquote_plus (quote_plus kv.1) ≠ k := by
        intro hcontra
        exact hkv ((uqqp_eq_ascii_iff kv.1 k hk).mp hcontra)
      simp only [List.map_cons]
      rw [pairsFirst, List.find?_cons, pairsFirst, List.find?_cons]
      have hb1 : ((unquote_plus (quote_plus kv.1), unquote_plus (quote_plus kv.2)).1 == k)
          = false := by simpa using this
      have hb2 : (kv.1 == k) = false := by simpa using hkv
      rw [hb1, hb2]
      exact ih

/-! ## C9 groundwork: `str`/`int` round trip on naturals -/

theorem natDigitsAux_spec :
    ∀ (fuel n : ℕ), n < 10 ^ (fuel + 1) →
      natDigitsAux (fuel + 1) n ≠ []
      ∧ (∀ c ∈ natDigitsAux (fuel + 1) n, c.isDigit = true)
      ∧ (natDigitsAux (fuel + 1) n).foldl (fun a c => 10 * a + (c.toNat - 48)) 0 = n := by
  intro fuel
  induction fuel with
  | zero =>
    intro n hn
    have h10 : n < 10 := by simpa using hn
    rw [natDigitsAux, if_pos h10]
    have ht : (Char.ofNat (48 + n)).toNat = 48 + n :=
      charToNat_ofNat (48 + n) (by omega)
    refine ⟨by simp, ?_, ?_⟩
    · intro c hc
      rcases List.mem_singleton.mp hc with rfl
      interval_cases n <;> decide
    · simp [ht]
  | succ fuel ih =>
    intro n hn
    by_cases h10 : n < 10
    · rw [natDigitsAux, if_pos h10]
      have ht : (Char.ofNat (48 + n)).toNat = 48 + n :=
        charToNat_ofNat (48 + n) (by omega)
      refine ⟨by simp, ?_, ?_⟩
      · intro c hc
        rcases List.mem_singleton.mp hc with rfl
        interval_cases n <;> decide
      · simp [ht]
    · rw [natDigitsAux, if_neg h10]
      have hdiv : n / 10 < 10 ^ (fuel + 1) := by
        have h1 : n < 10 * 10 ^ (fuel + 1) := by
          calc n < 10 ^ (fuel + 1 + 1) := hn
          _ = 10 * 10 ^ (fuel + 1) := by ring
        omega
      obtain ⟨hne, hdig, hval⟩ := ih (n / 10) hdiv
      have ht : (Char.ofNat (48 + n % 10)).toNat = 48 + n % 10 :=
        charToNat_ofNat (48 + n % 10) (by omega)
      refine ⟨by simp, ?_, ?_⟩
      · intro c hc
        rcases List.mem_append.mp hc with hc | hc
        · exact hdig c hc
        · rcases List.mem_singleton.mp hc with rfl
          have h9 : n % 10 < 10 := Nat.mod_lt _ (by omega)
          generalize hm : n % 10 = m at h9 ⊢
          interval_cases m <;> decide
      · rw [List.foldl_append]
        simp only [List.foldl_cons, List.foldl_nil]
        rw [hval, ht]
        omega

theorem isPySpace_of_digit (c : Char) (h : c.isDigit = true) :
    isPySpace c = false := by
  by_contra hcontra
  have hsp : isPySpace c = true := by
    cases hx : isPySpace c
    · exact absurd hx hcontra
    · rfl
  unfold isPySpace at hsp
  simp only [Bool.or_eq_true, beq_iff_eq] at hsp
  rcases hsp with ((((h1 | h1) | h1) | h1) | h1) | h1 <;>
    (subst h1; exact absurd h (by decide))

theorem dropWhile_isPySpace_of_digits (l : List Char)
    (h : ∀ c ∈ l, c.isDigit = true) : l.dropWhile isPySpace = l := by
  cases l with
  | nil => rfl
  | cons c rest =>
    rw [List.dropWhile_cons, if_neg]
    rw [isPySpace_of_digit c (h c (by simp))]
    simp

theorem digitsLoopVal_digits :
    ∀ (l : List Char), (∀ c ∈ l, c.isDigit = true) → ∀ acc,
      digitsLoopVal acc l
        = some (l.foldl (fun a c => 10 * a + (c.toNat - 48)) acc) := by
  intro l
  induction l with
  | nil => intro _ acc; rfl
  | cons c rest ih =>
    intro h acc
    have hd : c.isDigit = true := h c (by simp)
    have hu : ¬(c = '_') := by
      intro he
      subst he
      exact absurd hd (by decide)
    rw [digitsLoopVal.eq_def]
    dsimp only
    rw [if_neg hu, if_pos hd, ih (fun x hx => h x (by simp [hx]))]
    simp

theorem digitsVal_digits (l : List Char) (hne : l ≠ [])
    (h : ∀ c ∈ l, c.isDigit = true) :
    digitsVal l = some (l.foldl (fun a c => 10 * a + (c.toNat - 48)) 0) := by
  cases l with
  | nil => exact absurd rfl hne
  | cons c rest =>
    rw [digitsVal, if_pos (h c (by simp)),
      digitsLoopVal_digits rest (fun x hx => h x (by simp [hx]))]
    simp only [List.foldl_cons]
    norm_num

theorem pyInt_pyStrOfNat (n : ℕ) : pyInt (pyStrOfNat n) = some (n : ℤ) := by
  have hfuel : n < 10 ^ (n + 1) := by
    calc n < 10 ^ n := Nat.lt_pow_self (by omega) n
    _ ≤ 10 ^ (n + 1) := Nat.pow_le_pow_right (by omega) (by omega)
  obtain ⟨hne, hdig, hval⟩ := natDigitsAux_spec n n hfuel
  unfold pyInt
  have hstrip : (((pyStrOfNat n).data.dropWhile isPySpace).reverse.dropWhile
      isPySpace).reverse = natDigitsAux (n + 1) n := by
    show (((natDigitsAux (n + 1) n).dropWhile isPySpace).reverse.dropWhile
      isPySpace).reverse = _
    rw [dropWhile_isPySpace_of_digits _ hdig,
      dropWhile_isPySpace_of_digits _ (fun c hc => hdig c (List.mem_reverse.mp hc)),
      List.reverse_reverse]
  rw [hstrip]
  cases hl : natDigitsAux (n + 1) n with
  | nil => exact absurd hl hne
  | cons c rest =>
    have hd : c.isDigit = true := hdig c (by rw [hl]; simp)
    have hplus : ¬(c = '+') := by
      intro he; subst he; exact absurd hd (by decide)
    have hminus : ¬(c = '-') := by
      intro he; subst he; exact absurd hd (by decide)
    dsimp only
    rw [if_neg hplus, if_neg hminus, ← hl,
      digitsVal_digits _ hne hdig, hval]
    rfl

/-! ## C9 groundwork: scheme detection and reparsing a constructed URL -/

theorem schemeChars_toLower_mem : ∀ c ∈ schemeChars, Char.toLower c ∈ schemeChars := by
  decide

theorem schemeChars_toLower_alpha :
    ∀ c ∈ schemeChars, (Char.toLower c).isAlpha = c.isAlpha := by
  decide

theorem schemeChars_clean :
    ∀ c ∈ schemeChars, (!(c == '\t' || c == '\r' || c == '\n')) = true := by
  decide

theorem breakAt_some_decomp (p : Char → Bool) :
    ∀ (l b r : List Char), breakAt p l = (b, some r) →
      ∃ ch, p ch = true ∧ l = b ++ ch :: r := by
  intro l
  induction l with
  | nil =>
    intro b r h
    rw [breakAt] at h
    exact absurd (congrArg Prod.snd h) (by simp)
  | cons c rest ih =>
    intro b r h
    by_cases hc : p c = true
    · rw [breakAt, if_pos hc] at h
      injection h with h1 h2
      injection h2 with h2
      exact ⟨c, hc, by rw [← h1, ← h2]; rfl⟩
    · rw [breakAt, if_neg hc] at h
      rcases hrest : breakAt p rest with ⟨a, t⟩
      rw [hrest] at h
      dsimp only at h
      injection h with h1 h2
      subst h2
      obtain ⟨ch, hch, hdec⟩ := ih a r hrest
      exact ⟨ch, hch, by rw [← h1, hdec]; rfl⟩

theorem splitScheme_of_head_not_alpha (l : List Char)
    (h : ((l.headD ' ').isAlpha) = false) : splitScheme l = ("", l) := by
  rcases hb : breakAt (fun c => c = ':') l with ⟨before, rest?⟩
  unfold splitScheme
  rw [hb]
  cases rest? with
  | none => rfl
  | some rest =>
    dsimp only
    have hnot : ¬(before ≠ [] ∧ ((before.headD ' ').isAlpha) = true
        ∧ ∀ c ∈ before, c ∈ schemeChars) := by
      rintro ⟨h1, h2, -⟩
      obtain ⟨ch, -, hdec⟩ := breakAt_some_decomp _ l before rest hb
      cases before with
      | nil => exact h1 rfl
      | cons c bt =>
        rw [hdec] at h
        simp only [List.cons_append, List.headD_cons] at h
        simp only [List.headD_cons] at h2
        rw [h2] at h
        exact Bool.noConfusion h
    rw [if_neg hnot]

theorem splitScheme_prefix (sd rest : List Char) (h1 : sd ≠ [])
    (h2 : ((sd.headD ' ').isAlpha) = true) (h3 : ∀ c ∈ sd, c ∈ schemeChars) :
    splitScheme (sd ++ ':' :: rest) = (⟨sd.map Char.toLower⟩, rest) := by
  have hb : breakAt (fun c => c = ':') (sd ++ ':' :: rest) = (sd, some rest) := by
    refine breakAt_append_found _ sd ':' rest ?_ (by decide)
    intro c hc
    have hcs := h3 c hc
    have hne : c ≠ ':' := fun he => absurd (he ▸ hcs) (by decide)
    simp [hne]
  unfold splitScheme
  rw [hb]
  dsimp only
  rw [if_pos ⟨h1, h2, h3⟩]

theorem splitScheme_fst_spec (l : List Char) :
    (splitScheme l).1 = ""
    ∨ ((splitScheme l).1.data ≠ []
       ∧ (((splitScheme l).1.data.headD ' ').isAlpha) = true
       ∧ ∀ c ∈ (splitScheme l).1.data, c ∈ schemeChars) := by
  rcases hb : breakAt (fun c => c = ':') l with ⟨before, rest?⟩
  unfold splitScheme
  rw [hb]
  cases rest? with
  | none => exact Or.inl rfl
  | some rest =>
    dsimp only
    by_cases hcond : before ≠ [] ∧ ((before.headD ' ').isAlpha) = true
        ∧ ∀ c ∈ before, c ∈ schemeChars
    · rw [if_pos hcond]
      obtain ⟨h1, h2, h3⟩ := hcond
      right
      refine ⟨?_, ?_, ?_⟩
      · cases before with
        | nil => exact absurd rfl h1
        | cons c bt =>
          show ((c :: bt).map Char.toLower) ≠ []
          simp
      · cases before with
        | nil => exact absurd rfl h1
        | cons c bt =>
          show (((c :: bt).map Char.toLower).headD ' ').isAlpha = true
          simp only [List.map_cons, List.headD_cons]
          rw [schemeChars_toLower_alpha c (h3 c (by simp))]
          simpa using h2
      · show ∀ cc ∈ before.map Char.toLower, cc ∈ schemeChars
        intro cc hcc
        obtain ⟨a, ha, rfl⟩ := List.mem_map.mp hcc
        exact schemeChars_toLower_mem a (h3 a ha)
    · rw [if_neg hcond]
      exact Or.inl rfl

theorem pyUrlparse_scheme_spec (s : String) :
    (pyUrlparse s).scheme = ""
    ∨ ((pyUrlparse s).scheme.data ≠ []
       ∧ (((pyUrlparse s).scheme.data.headD ' ').isAlpha) = true
       ∧ ∀ c ∈ (pyUrlparse s).scheme.data, c ∈ schemeChars) :=
  splitScheme_fst_spec (s.data.filter (fun c => !(c == '\t' || c == '\r' || c == '\n')))

theorem filter_all_true (p : Char → Bool) :
    ∀ l : List Char, (∀ c ∈ l, p c = true) → l.filter p = l := by
  intro l
  induction l with
  | nil => intro _; rfl
  | cons c rest ih =>
    intro h
    have hc := h c (by simp)
    have hr := ih (fun d hd => h d (by simp [hd]))
    simp [List.filter_cons, hc, hr]

theorem pyUrlunparse_iai (scheme q : String) (hq : q ≠ "") :
    (pyUrlunparse scheme "jobs.iai.co.il" "/jobs/" "" q).data
      = (if scheme = "" then ([] : List Char) else scheme.data ++ [':'])
        ++ (("//jobs.iai.co.il/jobs/?" : String).data ++ q.data) := by
  have hq' : (q != "") = true := by simpa using hq
  have c1 : ¬(((("" : String)) != "") = true) := by decide
  have c2 : (("jobs.iai.co.il" : String) != ""
      || charsStartWith ("/jobs/" : String).data ['/', '/']) = true := by decide
  have c3 : ¬((("/jobs/" : String) != ""
      && !charsStartWith ("/jobs/" : String).data ['/']) = true) := by decide
  have hsplit : ("//jobs.iai.co.il/jobs/?" : String).data
      = ("//" : String).data ++ (("jobs.iai.co.il" : String).data
        ++ (("/jobs/" : String).data ++ ("?" : String).data)) := by decide
  simp only [pyUrlunparse]
  rw [if_neg c1, if_pos c2, if_neg c3, if_pos hq']
  by_cases hs : scheme = ""
  · subst hs
    rw [if_neg c1, if_pos rfl]
    simp only [String.data_append, List.nil_append, hsplit, List.append_assoc]
    rfl
  · have hs' : (scheme != "") = true := by simpa using hs
    rw [if_pos hs', if_neg hs]
    simp only [String.data_append, List.append_assoc, hsplit,
      show (":" : String).data = [':'] from rfl]
    rfl

theorem pyUrlunparse_iai_filter (scheme q : String) (hq : q ≠ "")
    (hs : scheme = "" ∨ (scheme.data ≠ [] ∧ ((scheme.data.headD ' ').isAlpha) = true
          ∧ ∀ c ∈ scheme.data, c ∈ schemeChars))
    (hqc : ∀ c ∈ q.data, c ≠ '\t' ∧ c ≠ '\r' ∧ c ≠ '\n') :
    (pyUrlunparse scheme "jobs.iai.co.il" "/jobs/" "" q).data.filter
        (fun c => !(c == '\t' || c == '\r' || c == '\n'))
      = (if scheme = "" then ([] : List Char) else scheme.data ++ [':'])
        ++ (("//jobs.iai.co.il/jobs/?" : String).data ++ q.data) := by
  rw [pyUrlunparse_iai scheme q hq]
  refine filter_all_true _ _ ?_
  have hmid : ∀ c ∈ ("//jobs.iai.co.il/jobs/?" : String).data,
      (!(c == '\t' || c == '\r' || c == '\n')) = true := by decide
  intro c hc
  show (!(c == '\t' || c == '\r' || c == '\n')) = true
  rcases List.mem_append.mp hc with hc | hc
  · by_cases hsch : scheme = ""
    · rw [if_pos hsch] at hc
      simp at hc
    · rw [if_neg hsch] at hc
      rcases List.mem_append.mp hc with hc | hc
      · rcases hs with hs0 | ⟨-, -, h3⟩
        · exact absurd hs0 hsch
        · exact schemeChars_clean c (h3 c hc)
      · rcases List.mem_singleton.mp hc with rfl
        decide
  · rcases List.mem_append.mp hc with hc | hc
    · exact hmid c hc
    · obtain ⟨h1, h2, h3⟩ := hqc c hc
      simp [h1, h2, h3]

theorem pyUrlparse_constructed (scheme q : String) (hq : q ≠ "")
    (hs : scheme = "" ∨ (scheme.data ≠ [] ∧ ((scheme.data.headD ' ').isAlpha) = true
          ∧ ∀ c ∈ scheme.data, c ∈ schemeChars))
    (hqc : ∀ c ∈ q.data, c ≠ '#' ∧ c ≠ '\t' ∧ c ≠ '\r' ∧ c ≠ '\n') :
    (pyUrlparse (pyUrlunparse scheme "jobs.iai.co.il" "/jobs/" "" q)).netloc
        = "jobs.iai.co.il"
    ∧ (pyUrlparse (pyUrlunparse scheme "jobs.iai.co.il" "/jobs/" "" q)).path = "/jobs/"
    ∧ (pyUrlparse (pyUrlunparse scheme "jobs.iai.co.il" "/jobs/" "" q)).query = q := by
  have hfilter := pyUrlunparse_iai_filter scheme q hq hs (fun c hc => (hqc c hc).2)
  have e1 : (splitScheme ((if scheme = "" then ([] : List Char) else scheme.data ++ [':'])
        ++ (("//jobs.iai.co.il/jobs/?" : String).data ++ q.data))).2
      = ("//jobs.iai.co.il/jobs/?" : String).data ++ q.data := by
    by_cases hsch : scheme = ""
    · rw [if_pos hsch, List.nil_append]
      have hhd : ((("//jobs.iai.co.il/jobs/?" : String).data ++ q.data).headD ' ') = '/' :=
        rfl
      rw [splitScheme_of_head_not_alpha _ (by rw [hhd]; decide)]
    · rw [if_neg hsch]
      rcases hs with hs0 | ⟨h1, h2, h3⟩
      · exact absurd hs0 hsch
      · rw [List.append_assoc, List.singleton_append,
          splitScheme_prefix scheme.data _ h1 h2 h3]
  have hstep : ∀ L : List Char, splitNetloc ('/' :: '/' :: L)
      = (⟨L.takeWhile (fun c => !netlocDelim c)⟩,
          L.dropWhile (fun c => !netlocDelim c)) := fun L => rfl
  have hN : splitNetloc (("//jobs.iai.co.il/jobs/?" : String).data ++ q.data)
      = ("jobs.iai.co.il", ("/jobs/?" : String).data ++ q.data) := by
    rw [show (("//jobs.iai.co.il/jobs/?" : String).data ++ q.data)
        = '/' :: '/' :: (("jobs.iai.co.il" : String).data
            ++ ('/' :: (("jobs/?" : String).data ++ q.data))) from rfl]
    rw [hstep]
    rw [takeWhile_append_of _ _ '/' _ (by decide) (by decide),
      dropWhile_append_of _ _ '/' _ (by decide) (by decide)]
    rfl
  have hF : cutAtFirst '#' (("/jobs/?" : String).data ++ q.data)
      = (("/jobs/?" : String).data ++ q.data, []) := by
    have hlit : ∀ c ∈ ("/jobs/?" : String).data, (decide (c = '#')) = false := by decide
    have hnot : ∀ c ∈ (("/jobs/?" : String).data ++ q.data),
        (decide (c = '#')) = false := by
      intro c hc
      rcases List.mem_append.mp hc with hc | hc
      · exact hlit c hc
      · simp [(hqc c hc).1]
    rw [cutAtFirst, breakAt_eq_of_not _ _ hnot]
  have hQ : cutAtFirst '?' (("/jobs/?" : String).data ++ q.data)
      = (("/jobs/" : String).data, q.data) := by
    rw [show (("/jobs/?" : String).data ++ q.data)
        = ("/jobs/" : String).data ++ '?' :: q.data from rfl]
    rw [cutAtFirst, breakAt_append_found _ _ '?' _ (by decide) (by decide)]
  have e2 : (splitNetloc (("//jobs.iai.co.il/jobs/?" : String).data ++ q.data)).1
      = "jobs.iai.co.il" := by rw [hN]
  have e2b : (splitNetloc (("//jobs.iai.co.il/jobs/?" : String).data ++ q.data)).2
      = ("/jobs/?" : String).data ++ q.data := by rw [hN]
  have e3 : (cutAtFirst '#' (("/jobs/?" : String).data ++ q.data)).1
      = ("/jobs/?" : String).data ++ q.data := by rw [hF]
  have e3b : (cutAtFirst '#' (("/jobs/?" : String).data ++ q.data)).2 = [] := by rw [hF]
  have e4 : (cutAtFirst '?' (("/jobs/?" : String).data ++ q.data)).1
      = ("/jobs/" : String).data := by rw [hQ]
  have e4b : (cutAtFirst '?' (("/jobs/?" : String).data ++ q.data)).2 = q.data := by
    rw [hQ]
  have e5 : (splitParamsChars ("/jobs/" : String).data).1
      = ("/jobs/" : String).data := by decide
  have e5b : (splitParamsChars ("/jobs/" : String).data).2 = [] := by decide
  have hparse : pyUrlparse (pyUrlunparse scheme "jobs.iai.co.il" "/jobs/" "" q)
      = ⟨(splitScheme ((if scheme = "" then ([] : List Char) else scheme.data ++ [':'])
            ++ (("//jobs.iai.co.il/jobs/?" : String).data ++ q.data))).1,
         "jobs.iai.co.il", "/jobs/", "", q, ""⟩ := by
    simp only [pyUrlparse]
    rw [hfilter, e1, e2, e2b, e3, e3b, e4, e4b, e5, e5b]
  exact ⟨by rw [hparse], by rw [hparse], by rw [hparse]⟩

/-! ## C9: successor and boundedness of `compute_next_list_url` -/

theorem digit_toNat_lt (c : Char) (h : c.isDigit = true) : c.toNat < 128 := by
  rw [Char.isDigit] at h
  simp only [Bool.and_eq_true, decide_eq_true_eq] at h
  have h3 : c.val ≤ 57 := h.2
  have h4 : c.val.toBitVec.toNat ≤ (57 : UInt32).toBitVec.toNat :=
    BitVec.le_def.mp (UInt32.le_def.mp h3)
  have h5 : ((57 : UInt32)).toBitVec.toNat = 57 := rfl
  rw [h5] at h4
  show c.val.toBitVec.toNat < 128
  omega

theorem pyStrOfNat_fuel (n : ℕ) : n < 10 ^ (n + 1) := by
  calc n < 10 ^ n := Nat.lt_pow_self (by omega) n
  _ ≤ 10 ^ (n + 1) := Nat.pow_le_pow_right (by omega) (by omega)

theorem pyStrOfNat_ascii (n : ℕ) : ∀ c ∈ (pyStrOfNat n).data, c.toNat < 128 := by
  intro c hc
  exact digit_toNat_lt c ((natDigitsAux_spec n n (pyStrOfNat_fuel n)).2.1 c hc)

theorem pyStrOfNat_ne_empty (n : ℕ) : pyStrOfNat n ≠ "" := by
  intro hcon
  exact (natDigitsAux_spec n n (pyStrOfNat_fuel n)).1 (congrArg String.data hcon)

theorem qsSet_ne_nil (qs : List (String × List String)) (k : String)
    (vs : List String) : qsSet qs k vs ≠ [] := by
  cases qs with
  | nil => simp [qsSet]
  | cons e rest =>
    obtain ⟨ke, vse⟩ := e
    by_cases hke : ke = k <;> simp [qsSet, hke]

theorem firstVals_ne_nil (qs : List (String × List String))
    (hok : ∀ e ∈ qs, e.2 ≠ []) (hne : qs ≠ []) : firstVals qs ≠ [] := by
  cases qs with
  | nil => exact absurd rfl hne
  | cons e rest =>
    have h2 := hok e (by simp)
    cases he : e.2 with
    | nil => exact absurd he h2
    | cons w wt =>
      simp [firstVals, List.filterMap_cons, he]

theorem firstVals_snd_ne (qs : List (String × List String))
    (hok : ∀ e ∈ qs, e.2 ≠ [] ∧ ∀ w ∈ e.2, w ≠ "") :
    ∀ kv ∈ firstVals qs, kv.2 ≠ "" := by
  intro kv hkv
  obtain ⟨e, he, hf⟩ := List.mem_filterMap.mp hkv
  obtain ⟨w, hw, hkv2⟩ := Option.map_eq_some'.mp hf
  have hwmem : w ∈ e.2 := by
    cases hvse : e.2 with
    | nil => rw [hvse] at hw; simp at hw
    | cons a b =>
      rw [hvse] at hw
      simp only [List.head?_cons, Option.some.injEq] at hw
      simp [hvse, ← hw]
  rw [← hkv2]
  exact (hok e he).2 w hwmem

theorem pyUrlencode_ne_empty (items : List (String × String)) (hne : items ≠ []) :
    pyUrlencode items ≠ "" := by
  obtain ⟨kv, t, rfl⟩ := List.exists_cons_of_ne_nil hne
  intro hcon
  have hdata : joinAmp ((kv :: t).map
      (fun kv => (quote_plus kv.1).data ++ '=' :: (quote_plus kv.2).data))
      = ([] : List Char) := congrArg String.data hcon
  rw [List.map_cons] at hdata
  cases ht : t with
  | nil =>
    rw [ht] at hdata
    simp [joinAmp] at hdata
  | cons kv2 t2 =>
    rw [ht, List.map_cons] at hdata
    simp [joinAmp] at hdata

theorem parse_qs_encoded_firstVal (qs1 : List (String × List String)) (k : String)
    (hok : ∀ e ∈ qs1, e.2 ≠ [] ∧ ∀ w ∈ e.2, w ≠ "") (hne : qs1 ≠ [])
    (hk : ∀ c ∈ k.data, c.toNat < 128) :
    qsFirstVal (parse_qs (pyUrlencode (firstVals qs1))) k
      = (qsFirstVal qs1 k).map (fun w => unquote_plus (quote_plus w)) := by
  rw [parse_qs_firstVal,
    parse_qsl_encoded (firstVals qs1) (firstVals_snd_ne qs1 hok)
      (firstVals_ne_nil qs1 (fun e he => (hok e he).1) hne),
    pairsFirst_map_uqqp (firstVals qs1) k hk,
    firstVals_pairsFirst qs1 k (fun e he => (hok e he).1)]

theorem pgDefault_of_firstVal_pg (w s : String)
    (h : qsFirstVal (parse_qs (pyUrlparse w).query) "pg" = some s) :
    pgDefault w = pyInt s := by
  obtain ⟨vs, hvs, hh⟩ := Option.bind_eq_some.mp h
  unfold pgDefault
  rw [hvs]
  dsimp only
  rw [hh]
  rfl

theorem constructed_url_props (scheme : String)
    (hs : scheme = "" ∨ (scheme.data ≠ [] ∧ ((scheme.data.headD ' ').isAlpha) = true
          ∧ ∀ c ∈ scheme.data, c ∈ schemeChars))
    (qs1 : List (String × List String))
    (hok : ∀ e ∈ qs1, e.2 ≠ [] ∧ ∀ w ∈ e.2, w ≠ "") (hne : qs1 ≠ []) :
    (pyUrlparse (pyUrlunparse scheme "jobs.iai.co.il" "/jobs/" ""
        (pyUrlencode (firstVals qs1)))).netloc = "jobs.iai.co.il"
    ∧ (pyUrlparse (pyUrlunparse scheme "jobs.iai.co.il" "/jobs/" ""
        (pyUrlencode (firstVals qs1)))).path = "/jobs/"
    ∧ ∀ k : String, (∀ c ∈ k.data, c.toNat < 128) →
        qsFirstVal (parse_qs (pyUrlparse (pyUrlunparse scheme "jobs.iai.co.il" "/jobs/" ""
            (pyUrlencode (firstVals qs1)))).query) k
          = (qsFirstVal qs1 k).map (fun w => unquote_plus (quote_plus w)) := by
  have hQne : pyUrlencode (firstVals qs1) ≠ "" :=
    pyUrlencode_ne_empty _ (firstVals_ne_nil qs1 (fun e he => (hok e he).1) hne)
  have hqc : ∀ c ∈ (pyUrlencode (firstVals qs1)).data,
      c ≠ '#' ∧ c ≠ '\t' ∧ c ≠ '\r' ∧ c ≠ '\n' :=
    fun c hc => pyUrlencode_char_class (firstVals qs1) c hc
  obtain ⟨hn, hp, hq⟩ := pyUrlparse_constructed scheme (pyUrlencode (firstVals qs1))
    hQne hs hqc
  refine ⟨hn, hp, ?_⟩
  intro k hk
  rw [hq]
  exact parse_qs_encoded_firstVal qs1 k hok hne hk

theorem compute_next_spec (u v : String) (h : compute_next_list_url u = some v) :
    ∃ x : ℤ, pgDefault u = some x ∧ 1 ≤ x ∧ x ≤ 1000
      ∧ pgDefault v = some (x + 1)
      ∧ (pyUrlparse v).netloc = (pyUrlparse BASE_LIST_URL).netloc
      ∧ (pyUrlparse v).path = "/jobs/"
      ∧ qsFirstVal (parse_qs (pyUrlparse v).query) "pr" = some "41"
      ∧ (pyUrlparse u).netloc = (pyUrlparse BASE_LIST_URL).netloc
      ∧ (pyUrlparse u).path = "/jobs/"
      ∧ qsFirstVal (parse_qs (pyUrlparse u).query) "pr" = some "41" := by
  unfold compute_next_list_url at h
  dsimp only at h
  split at h
  · exact Option.noConfusion h
  rename_i hnetb
  split at h
  · exact Option.noConfusion h
  rename_i hpathb
  split at h
  · exact Option.noConfusion h
  rename_i hprb
  have hnet : (pyUrlparse u).netloc = (pyUrlparse BASE_LIST_URL).netloc := by
    simpa using hnetb
  have hpath : (pyUrlparse u).path = "/jobs/" := by simpa using hpathb
  have hpr : qsFirstVal (parse_qs (pyUrlparse u).query) "pr" = some "41" := by
    simpa using hprb
  have hbase : (pyUrlparse BASE_LIST_URL).netloc = "jobs.iai.co.il" := by decide
  split at h
  · exact Option.noConfusion h
  rename_i npg hnpg
  injection h with hv
  rw [hpath, hnet, hbase] at hv
  have hok1 := qsSet_ok (parse_qs (pyUrlparse u).query) "pg" [pyStrOfNat npg]
    (parse_qs_ok (pyUrlparse u).query)
    ⟨by simp, by
      intro w hw
      rcases List.mem_singleton.mp hw with rfl
      exact pyStrOfNat_ne_empty npg⟩
  have hne1 : qsSet (parse_qs (pyUrlparse u).query) "pg" [pyStrOfNat npg] ≠ [] :=
    qsSet_ne_nil _ _ _
  obtain ⟨hvn, hvp, hvq⟩ := constructed_url_props (pyUrlparse u).scheme
    (pyUrlparse_scheme_spec u) _ hok1 hne1
  rw [hv] at hvn hvp hvq
  have hpg0 := hvq "pg" (by decide)
  rw [qsSet_firstVal_self] at hpg0
  simp only [List.head?_cons, Option.map_some'] at hpg0
  rw [uqqp_ascii _ (pyStrOfNat_ascii npg)] at hpg0
  have hpgv : pgDefault v = some ((npg : ℕ) : ℤ) := by
    rw [pgDefault_of_firstVal_pg v _ hpg0, pyInt_pyStrOfNat]
  have hprv0 := hvq "pr" (by decide)
  rw [qsSet_firstVal_ne _ _ _ _ (by decide), hpr] at hprv0
  simp only [Option.map_some'] at hprv0
  rw [show unquote_plus (quote_plus "41") = "41" from by decide] at hprv0
  split at hnpg
  · rename_i hfind
    injection hnpg with h2
    subst h2
    have hpgu : pgDefault u = some 1 := by
      unfold pgDefault
      rw [hfind]
    refine ⟨1, hpgu, by norm_num, by norm_num, ?_, hvn, hvp, hprv0, hnet, hpath, hpr⟩
    rw [hpgv]
    norm_num
  · rename_i vs hfind
    split at hnpg
    · exact Option.noConfusion hnpg
    rename_i w hhead
    split at hnpg
    · exact Option.noConfusion hnpg
    rename_i x0 hint
    split at hnpg
    · exact Option.noConfusion hnpg
    rename_i hbound
    injection hnpg with h2
    subst h2
    have hb1 : 1 ≤ x0 := by omega
    have hb2 : x0 ≤ 1000 := by omega
    have hpgu : pgDefault u = some x0 := by
      unfold pgDefault
      rw [hfind]
      dsimp only
      rw [hhead]
      exact hint
    refine ⟨x0, hpgu, hb1, hb2, ?_, hvn, hvp, hprv0, hnet, hpath, hpr⟩
    rw [hpgv]
    have hcast : ((x0.toNat + 1 : ℕ) : ℤ) = x0 + 1 := by omega
    rw [hcast]

theorem compute_next_isSome_iff (u : String) :
    (compute_next_list_url u).isSome = true ↔
      ((pyUrlparse u).netloc = (pyUrlparse BASE_LIST_URL).netloc
        ∧ (pyUrlparse u).path = "/jobs/"
        ∧ qsFirstVal (parse_qs (pyUrlparse u).query) "pr" = some "41"
        ∧ ∃ x : ℤ, pgDefault u = some x ∧ 1 ≤ x ∧ x ≤ 1000) := by
  constructor
  · intro h
    obtain ⟨v, hv⟩ := Option.isSome_iff_exists.mp h
    obtain ⟨x, h1, h2, h3, -, -, -, -, h8, h9, h10⟩ := compute_next_spec u v hv
    exact ⟨h8, h9, h10, x, h1, h2, h3⟩
  · rintro ⟨hn, hp, hpr, x, hx, hx1, hx2⟩
    unfold compute_next_list_url
    dsimp only
    rw [if_neg (by simp [hn]), if_neg (by simp [hp]), if_neg (by simp [hpr])]
    cases hfind : qsFind (parse_qs (pyUrlparse u).query) "pg" with
    | none => rfl
    | some vs =>
      have hx' : vs.head?.bind pyInt = some x := by
        have hthis := hx
        unfold pgDefault at hthis
        rw [hfind] at hthis
        dsimp only at hthis
        exact hthis
      obtain ⟨w, hw, hint⟩ := Option.bind_eq_some.mp hx'
      dsimp only
      rw [hw]
      dsimp only
      rw [hint]
      dsimp only
      rw [if_neg (by omega)]
      rfl

theorem advanceN_key :
    ∀ (n : ℕ) (u v : String), advanceN n u = some v →
      n = 0 ∨ ∃ x : ℤ, pgDefault u = some x ∧ 1 ≤ x ∧ (n : ℤ) + x ≤ 1001 := by
  intro n
  induction n with
  | zero => intro u v _; exact Or.inl rfl
  | succ n ih =>
    intro u v h
    simp only [advanceN] at h
    obtain ⟨w, hw, hrest⟩ := Option.bind_eq_some.mp h
    obtain ⟨x, hx, hx1, hx2, hxv, -, -, -, -, -, -⟩ := compute_next_spec u w hw
    refine Or.inr ⟨x, hx, hx1, ?_⟩
    rcases ih w v hrest with h0 | ⟨y, hy, hy1, hy2⟩
    · subst h0
      omega
    · rw [hxv] at hy
      injection hy with hy
      rw [← hy] at hy2
      omega

theorem advanceN_le (u : String) : ∀ n v, advanceN n u = some v → n ≤ 1000 := by
  intro n v h
  rcases advanceN_key n u v h with h0 | ⟨x, -, h1, h2⟩
  · omega
  · omega

/-- C9: `compute_next_list_url` returns a successor URL exactly when the
current URL's host equals the base list URL's host, its path is exactly
`/jobs/`, its query has first `pr` value `"41"`, and its `pg` position
(the parsed first `pg` value, or `1` when `pg` is absent) is an integer
`x` with `1 ≤ x ≤ 1000`; the successor's `pg` position is then `x + 1`
(so an absent `pg` yields `pg=2`) and the successor again has the base
host, path `/jobs/` and `pr=41`; in all other cases it returns `none`,
and consequently URL-computed pagination can advance at most `1000`
times from any start. -/
theorem claim_C9 (u : String) :
    ((compute_next_list_url u).isSome = true ↔
      ((pyUrlparse u).netloc = (pyUrlparse BASE_LIST_URL).netloc
        ∧ (pyUrlparse u).path = "/jobs/"
        ∧ qsFirstVal (parse_qs (pyUrlparse u).query) "pr" = some "41"
        ∧ ∃ x : ℤ, pgDefault u = some x ∧ 1 ≤ x ∧ x ≤ 1000))
    ∧ (∀ v, compute_next_list_url u = some v →
        ∃ x : ℤ, pgDefault u = some x ∧ 1 ≤ x ∧ x ≤ 1000
          ∧ pgDefault v = some (x + 1)
          ∧ (pyUrlparse v).netloc = (pyUrlparse BASE_LIST_URL).netloc
          ∧ (pyUrlparse v).path = "/jobs/"
          ∧ qsFirstVal (parse_qs (pyUrlparse v).query) "pr" = some "41")
    ∧ (∀ n v, advanceN n u = some v → n ≤ 1000) := by
  refine ⟨compute_next_isSome_iff u, ?_, advanceN_le u⟩
  intro v hv
  obtain ⟨x, h1, h2, h3, h4, h5, h6, h7, -, -, -⟩ := compute_next_spec u v hv
  exact ⟨x, h1, h2, h3, h4, h5, h6, h7⟩

theorem claim_C9_witness :
    ((compute_next_list_url "https://jobs.iai.co.il/jobs/?pr=41").isSome = true)
    ∧ (∃ x : ℤ, pgDefault "https://jobs.iai.co.il/jobs/?pr=41" = some x
        ∧ 1 ≤ x ∧ x ≤ 1000
        ∧ pgDefault "https://jobs.iai.co.il/jobs/?pr=41&pg=2" = some (x + 1)
        ∧ (pyUrlparse "https://jobs.iai.co.il/jobs/?pr=41&pg=2").netloc
            = (pyUrlparse BASE_LIST_URL).netloc
        ∧ (pyUrlparse "https://jobs.iai.co.il/jobs/?pr=41&pg=2").path = "/jobs/"
        ∧ qsFirstVal
            (parse_qs (pyUrlparse "https://jobs.iai.co.il/jobs/?pr=41&pg=2").query) "pr"
            = some "41")
    ∧ (2 : ℕ) ≤ 1000 := by
  have h := claim_C9 "https://jobs.iai.co.il/jobs/?pr=41"
  refine ⟨?_, ?_, ?_⟩
  · exact h.1.mpr ⟨by decide, by decide, by decide, 1, by decide, by decide, by decide⟩
  · exact h.2.1 "https://jobs.iai.co.il/jobs/?pr=41&pg=2" (by decide)
  · exact h.2.2 2 "https://jobs.iai.co.il/jobs/?pr=41&pg=3" (by decide)
